import Mathlib

/-!
Verification of the tabular-to-JSON normalization layer and the
historical-range parameter resolution of the yahoo-query MCP server
(src/stock_mcp/server.py), as a shallow embedding in Lean 4.

The embedding models the Python values the server manipulates as the
inductive type `StockMCP.PyVal`: JSON scalars, the float NaN sentinel,
datetime objects, lists, dicts, pandas Series and pandas DataFrames
(single index, the shape the server receives).  The functions
`convert_to_json_serializable`, `format_response`, the range-resolution
block of `get_historical_prices`, `search_symbols` and the
symbols-argument parsing are translated line by line from the source.
Fallible Python steps (reset_index on a column collision, json.dumps on a
non-string dict key) are modelled in the `Except String` monad; the
try/except of `format_response` becomes a match on that result.
-/

namespace StockMCP

/-- A Python dict key as it can appear after `Series.to_dict()`: a string,
an int, or a pandas Timestamp (whose presence makes `json.dumps` raise). -/
inductive JKey : Type where
  | kstr (s : String)
  | kint (n : Int)
  | kts (s : String)
  deriving DecidableEq, Repr

/-- A scalar cell of a pandas object: the JSON scalars, the float NaN
sentinel (also covering NaT), or a Timestamp carrying its str() text. -/
inductive PyScalar : Type where
  | snull
  | sbool (b : Bool)
  | sint (n : Int)
  | sstr (s : String)
  | snan
  | sts (s : String)
  deriving DecidableEq, Repr

/-- A pandas DataFrame with a single index, as the server receives it:
the index has an optional name, a flag telling whether it is a default
positional RangeIndex, its per-row values, and the table has named
columns and row-major cells. -/
structure DataFrame : Type where
  indexName : Option String
  isRange : Bool
  indexVals : List PyScalar
  cols : List String
  rows : List (List PyScalar)
  deriving DecidableEq, Repr

/-- A Python value as `convert_to_json_serializable` can meet it. -/
inductive PyVal : Type where
  | pnull
  | pbool (b : Bool)
  | pint (n : Int)
  | pstr (s : String)
  | nan
  | pts (s : String)
  | plist (xs : List PyVal)
  | pdict (kvs : List (JKey × PyVal))
  | pdf (df : DataFrame)
  | pseries (keys : List JKey) (vals : List PyScalar)

/-- Injection of a scalar cell into the value type. -/
def PyScalar.toVal : PyScalar → PyVal
  | .snull => .pnull
  | .sbool b => .pbool b
  | .sint n => .pint n
  | .sstr s => .pstr s
  | .snan => .nan
  | .sts s => .pts s

/-- Python truthiness of an optional string: `None` and `""` are falsy. -/
def optTruthy : Option String → Bool
  | none => false
  | some s => s != ""

/-- `DataFrame.to_dict(orient='records')`: one dict per row, keys the
column names, values the raw (unconverted) cells, row order preserved. -/
def records (cols : List String) (rows : List (List PyScalar)) : PyVal :=
  .plist (rows.map fun r => .pdict (List.zip (cols.map JKey.kstr) (r.map PyScalar.toVal)))

/-- `DataFrame.reset_index()`: the column name the index gets (pandas
falls back to "index" for a nameless index). -/
def resetIndexName (o : Option String) : String := o.getD "index"

mutual

/-- server.py lines 22-38, `convert_to_json_serializable`.
DataFrame: reset the index to a column when the index is named or not a
default RangeIndex (pandas raises ValueError when the reset collides with
an existing column), then `to_dict(orient='records')`.  Series:
`to_dict()` (values NOT recursively converted).  dict and list/tuple:
recurse.  `pd.isna(data)`: NaN (and None) become None.  Anything else
passes through unchanged. -/
def convert_to_json_serializable : PyVal → Except String PyVal
  | .pdf df =>
      if optTruthy df.indexName || !df.isRange then
        let nm := resetIndexName df.indexName
        if nm ∈ df.cols then
          .error ("cannot insert " ++ nm ++ ", already exists")
        else
          .ok (records (nm :: df.cols)
                (List.zipWith (fun iv r => iv :: r) df.indexVals df.rows))
      else
        .ok (records df.cols df.rows)
  | .pseries keys vals => .ok (.pdict (List.zip keys (vals.map PyScalar.toVal)))
  | .pdict kvs => do
      let kvs2 ← convertPairs kvs
      return .pdict kvs2
  | .plist xs => do
      let xs2 ← convertElems xs
      return .plist xs2
  | .nan => .ok .pnull
  | .pnull => .ok .pnull
  | .pbool b => .ok (.pbool b)
  | .pint n => .ok (.pint n)
  | .pstr s => .ok (.pstr s)
  | .pts s => .ok (.pts s)

/-- The dict comprehension of line 32, value by value. -/
def convertPairs : List (JKey × PyVal) → Except String (List (JKey × PyVal))
  | [] => .ok []
  | (k, v) :: rest => do
      let v2 ← convert_to_json_serializable v
      let rest2 ← convertPairs rest
      return (k, v2) :: rest2

/-- The list comprehension of line 34, element by element. -/
def convertElems : List PyVal → Except String (List PyVal)
  | [] => .ok []
  | x :: rest => do
      let x2 ← convert_to_json_serializable x
      let rest2 ← convertElems rest
      return x2 :: rest2

end

/-- The decimal digit character for `k < 10`. -/
def decDigit (k : Nat) : Char := Char.ofNat (48 + k)

/-- The decimal digits of a natural number, most significant first: the
standard base-10 rendering, as Python's str() and json.dumps write ints. -/
def natDecDigits (n : Nat) : List Char :=
  if n < 10 then [decDigit n]
  else natDecDigits (n / 10) ++ [decDigit (n % 10)]
decreasing_by exact Nat.div_lt_self (by omega) (by omega)

/-- Python's str() of an int: an optional minus sign and decimal digits. -/
def intRepr (n : Int) : String :=
  if n < 0 then "-" ++ String.mk (natDecDigits (-n).toNat)
  else String.mk (natDecDigits n.toNat)

/-- One hex digit, lowercase, as Python's json encoder writes \uXXXX. -/
def hexDigit (n : Nat) : Char :=
  if n < 10 then Char.ofNat (48 + n) else Char.ofNat (87 + n)

/-- Four lowercase hex digits. -/
def hex4 (n : Nat) : String :=
  String.mk [hexDigit (n / 4096 % 16), hexDigit (n / 256 % 16),
             hexDigit (n / 16 % 16), hexDigit (n % 16)]

/-- How `json.dumps` (ensure_ascii=True, the default) writes one character
of a string: the two-character escapes, printable ASCII verbatim, and
\uXXXX (a surrogate pair above the BMP) for everything else. -/
def escapeChar (c : Char) : String :=
  if c = '"' then "\\\""
  else if c = '\\' then "\\\\"
  else if c = '\n' then "\\n"
  else if c = '\t' then "\\t"
  else if c = '\r' then "\\r"
  else if c.toNat = 8 then "\\b"
  else if c.toNat = 12 then "\\f"
  else if 32 ≤ c.toNat ∧ c.toNat ≤ 126 then String.singleton c
  else if c.toNat < 65536 then "\\u" ++ hex4 c.toNat
  else
    "\\u" ++ hex4 (55296 + (c.toNat - 65536) / 1024) ++
    "\\u" ++ hex4 (56320 + (c.toNat - 65536) % 1024)

/-- A JSON string literal as `json.dumps` emits it. -/
def quoteStr (s : String) : String :=
  "\"" ++ String.join (s.data.map escapeChar) ++ "\""

/-- `n` spaces. -/
def spaces (n : Nat) : String := String.mk (List.replicate n ' ')

/-- Modelled abstractly: the text Python's str() gives a pandas object.
Normalization eliminates every DataFrame and Series before serialization,
so this is reached only for a pandas object nested inside another
container, where json.dumps(default=str) stringifies it; no behaviour
verified here depends on its exact form. -/
def pandasRepr : String := "<pandas object>"

/-- `json.dumps(key)` for a dict key: str keys are quoted, int keys are
coerced to their decimal text, a Timestamp key raises TypeError. -/
def dumpKey : JKey → Except String String
  | .kstr s => .ok (quoteStr s)
  | .kint n => .ok (quoteStr (intRepr n))
  | .kts _ => .error "keys must be str, int, float, bool or None, not Timestamp"

mutual

/-- `json.dumps(v, indent=2, default=str)` at current indent `ind`:
scalars inline (NaN prints as the literal NaN, a datetime is stringified
by default=str and quoted), containers open a bracket, put each item on
its own line indented two further, and close at `ind`. -/
def dumpsVal (ind : Nat) : PyVal → Except String String
  | .pnull => .ok "null"
  | .pbool b => .ok (if b then "true" else "false")
  | .pint n => .ok (intRepr n)
  | .pstr s => .ok (quoteStr s)
  | .nan => .ok "NaN"
  | .pts s => .ok (quoteStr s)
  | .pdf _ => .ok (quoteStr pandasRepr)
  | .pseries _ _ => .ok (quoteStr pandasRepr)
  | .plist [] => .ok "[]"
  | .plist (x :: xs) => do
      let body ← dumpsItems (ind + 2) x xs
      return "[\n" ++ body ++ "\n" ++ spaces ind ++ "]"
  | .pdict [] => .ok "\x7b\x7d"
  | .pdict ((k, v) :: kvs) => do
      let body ← dumpsPairs (ind + 2) k v kvs
      return "\x7b\n" ++ body ++ "\n" ++ spaces ind ++ "\x7d"
termination_by v => sizeOf v
decreasing_by all_goals simp_wf; all_goals omega

/-- The comma-newline separated items of a nonempty JSON array. -/
def dumpsItems (ind : Nat) (x : PyVal) : List PyVal → Except String String
  | [] => do
      let s ← dumpsVal ind x
      return spaces ind ++ s
  | y :: ys => do
      let s ← dumpsVal ind x
      let rest ← dumpsItems ind y ys
      return spaces ind ++ s ++ ",\n" ++ rest
termination_by l => 1 + sizeOf x + sizeOf l
decreasing_by all_goals simp_wf; all_goals omega

/-- The comma-newline separated members of a nonempty JSON object. -/
def dumpsPairs (ind : Nat) (k : JKey) (v : PyVal) : List (JKey × PyVal) → Except String String
  | [] => do
      let ks ← dumpKey k
      let s ← dumpsVal ind v
      return spaces ind ++ ks ++ ": " ++ s
  | (k2, v2) :: ps => do
      let ks ← dumpKey k
      let s ← dumpsVal ind v
      let rest ← dumpsPairs ind k2 v2 ps
      return spaces ind ++ ks ++ ": " ++ s ++ ",\n" ++ rest
termination_by l => 1 + sizeOf v + sizeOf l
decreasing_by all_goals simp_wf; all_goals omega

end

/-- Line 45: `json_data is None or (isinstance(json_data, list) and len(json_data) == 0)`. -/
def isNoData : PyVal → Bool
  | .pnull => true
  | .plist [] => true
  | _ => false

/-- server.py lines 41-51, `format_response`: normalize, answer
"No data available" for None or an empty list, otherwise pretty-print;
any exception from normalization or serialization is caught and turned
into the error-formatting string. -/
def format_response (data : PyVal) (title : String) : String :=
  match convert_to_json_serializable data with
  | .error e => title ++ ": Error formatting data - " ++ e
  | .ok json_data =>
      if isNoData json_data then title ++ ": No data available"
      else
        match dumpsVal 0 json_data with
        | .ok s => title ++ ":\n" ++ s
        | .error e => title ++ ": Error formatting data - " ++ e

/-! ## Date formatting (datetime.strftime('%Y-%m-%d')) -/

/-- Proleptic-Gregorian civil date (year, month, day) of a day count with
day 0 = 1970-01-01, the classic days-to-civil algorithm over Nat
(every intermediate quantity is nonnegative for days ≥ 0). -/
def civilFromDays (days : Nat) : Nat × Nat × Nat :=
  let z := days + 719468
  let era := z / 146097
  let doe := z % 146097
  let yoe := (doe - doe / 1460 + doe / 36524 - doe / 146096) / 365
  let y0 := yoe + era * 400
  let doy := doe - (365 * yoe + yoe / 4 - yoe / 100)
  let mp := (5 * doy + 2) / 153
  let d := doy - (153 * mp + 2) / 5 + 1
  let m := if mp < 10 then mp + 3 else mp - 9
  (if m ≤ 2 then y0 + 1 else y0, m, d)

/-- Two digits, zero padded. -/
def pad2 (n : Nat) : String := if n < 10 then "0" ++ toString n else toString n

/-- Four digits, zero padded. -/
def pad4 (n : Nat) : String :=
  if n < 10 then "000" ++ toString n
  else if n < 100 then "00" ++ toString n
  else if n < 1000 then "0" ++ toString n
  else toString n

/-- `datetime.strftime('%Y-%m-%d')` of the civil date `days` days after
1970-01-01. -/
def formatYMD (days : Nat) : String :=
  let c := civilFromDays days
  pad4 c.1 ++ "-" ++ pad2 c.2.1 ++ "-" ++ pad2 c.2.2

/-! ## The range resolver of get_historical_prices -/

/-- The query parameters `get_historical_prices` hands to
`Ticker.history`: interval, the two fixed flags, and either a period or a
start/end pair (a missing entry models an absent dict key). -/
structure HistoryParams : Type where
  interval : String
  adj_timezone : Bool
  adj_ohlc : Bool
  period : Option String
  start : Option String
  endParam : Option String
  deriving DecidableEq, Repr

/-- server.py lines 360-378, the parameter-resolution block of
`get_historical_prices`.  `today` is the day count of `datetime.today()`;
the impure clock made an explicit argument.  The condition on line 368 is
Python's `if period and not (start_date or end_date)`, so a None or empty
string counts as absent; on the date branch a falsy end defaults to today
and a falsy start to 365 days before today, both strftime'd. -/
def resolveHistoryParams (today : Nat) (period start_date end_date : Option String)
    (interval : String) : HistoryParams :=
  if optTruthy period && !(optTruthy start_date || optTruthy end_date) then
    { interval := interval, adj_timezone := true, adj_ohlc := false,
      period := period, start := none, endParam := none }
  else
    let ed := if !(optTruthy end_date) then some (formatYMD today) else end_date
    let sd := if !(optTruthy start_date) then some (formatYMD (today - 365)) else start_date
    { interval := interval, adj_timezone := true, adj_ohlc := false,
      period := none, start := sd, endParam := ed }

/-! ## search_symbols -/

/-- `quote.get(k, d)` on a quote modelled as an ordered association list
of string fields. -/
def quoteGet (q : List (String × String)) (k : String) (d : String) : String :=
  match q.find? (fun p => p.1 == k) with
  | some p => p.2
  | none => d

/-- server.py lines 414-419: one search result reduced to the four fields. -/
def formatQuote (q : List (String × String)) : PyVal :=
  .pdict [(.kstr "symbol", .pstr (quoteGet q "symbol" "")),
          (.kstr "name", .pstr (quoteGet q "longname" (quoteGet q "shortname" ""))),
          (.kstr "type", .pstr (quoteGet q "quoteType" "")),
          (.kstr "exchange", .pstr (quoteGet q "exchange" ""))]

/-- server.py lines 404-424, `search_symbols` after the upstream call:
`results` is `some quotes` when the search response is truthy and has a
quotes key, else `none`.  The first ten quotes are formatted and
pretty-printed. -/
def search_symbols (query : String) (results : Option (List (List (String × String)))) : String :=
  match results with
  | some quotes =>
      match dumpsVal 0 (.plist ((quotes.take 10).map formatQuote)) with
      | .ok s => "Search Results for '" ++ query ++ "':\n" ++ s
      | .error e => "Error searching symbols: " ++ e
  | none => "No results found for '" ++ query ++ "'"

/-! ## The symbols argument: `[s.strip().upper() for s in symbols.split(',')]`
(line 61 of get_financial_data, line 357 of get_historical_prices, and the
same expression in every other per-field tool). -/

/-- Python `str.strip()` whitespace: space, tab, newline, CR, VT, FF
(the ASCII part of Python's definition; ticker strings are ASCII). -/
def pyWs (c : Char) : Bool :=
  c.toNat = 32 || c.toNat = 9 || c.toNat = 10 || c.toNat = 13 ||
  c.toNat = 11 || c.toNat = 12

/-- Python `str.strip()`: drop whitespace from both ends. -/
def pyStrip (s : String) : String :=
  String.mk (((s.data.dropWhile pyWs).reverse.dropWhile pyWs).reverse)

/-- Python `str.upper()` on one character (the ASCII case; Python is
Unicode-aware but ticker symbols are ASCII). -/
def pyUpperChar (c : Char) : Char :=
  if 97 ≤ c.toNat ∧ c.toNat ≤ 122 then Char.ofNat (c.toNat - 32) else c

/-- Python `str.upper()`. -/
def pyUpper (s : String) : String := String.mk (s.data.map pyUpperChar)

/-- Worker for `pySplitComma`: `cur` holds the current token reversed. -/
def splitCommaAux (cur : List Char) : List Char → List String
  | [] => [String.mk cur.reverse]
  | c :: cs =>
      if c = ',' then String.mk cur.reverse :: splitCommaAux [] cs
      else splitCommaAux (c :: cur) cs

/-- Python `str.split(',')`: cut at every comma; `""` yields `[""]`,
adjacent commas yield empty tokens. -/
def pySplitComma (s : String) : List String := splitCommaAux [] s.data

/-- The ticker list every tool builds from its `symbols` argument. -/
def tickerList (symbols : String) : List String :=
  (pySplitComma symbols).map (fun t => pyUpper (pyStrip t))

/-- The head of the character list is not Python whitespace (an empty
list passes). -/
def headNotWs (l : List Char) : Bool :=
  match l.head? with
  | none => true
  | some c => !pyWs c

/-- No leading and no trailing Python whitespace. -/
def edgeClean (s : String) : Bool := headNotWs s.data && headNotWs s.data.reverse

/-- No ASCII lowercase letter remains. -/
def noLowerAscii (s : String) : Bool :=
  s.data.all (fun c => !(decide (97 ≤ c.toNat) && decide (c.toNat ≤ 122)))

/-! ## Normalization predicates -/

/-- A dict key `json.dumps` accepts (str and int keys; a Timestamp key
raises). -/
def jsonKey : JKey → Bool
  | .kstr _ => true
  | .kint _ => true
  | .kts _ => false

mutual

/-- An already-normalized, JSON-safe value: the JSON scalars, and lists
and dicts (with serializable keys) of such values.  The NaN sentinel,
datetime objects and pandas objects are not normalized. -/
def isNormalized : PyVal → Bool
  | .pnull => true
  | .pbool _ => true
  | .pint _ => true
  | .pstr _ => true
  | .plist xs => isNormalizedElems xs
  | .pdict kvs => isNormalizedPairs kvs
  | .nan => false
  | .pts _ => false
  | .pdf _ => false
  | .pseries _ _ => false

def isNormalizedElems : List PyVal → Bool
  | [] => true
  | x :: xs => isNormalized x && isNormalizedElems xs

def isNormalizedPairs : List (JKey × PyVal) → Bool
  | [] => true
  | (k, v) :: rest => jsonKey k && isNormalized v && isNormalizedPairs rest

end

/-- A character a JSON string can hold verbatim: printable ASCII other
than the quote and the backslash.  `json.dumps` escapes everything else. -/
def safeChar (c : Char) : Bool :=
  decide (32 ≤ c.toNat) && decide (c.toNat ≤ 126) &&
  decide (c.toNat ≠ 34) && decide (c.toNat ≠ 92)

/-- A string of verbatim-serializable characters. -/
def safeString (s : String) : Bool := s.data.all safeChar

/-- A key that is a string of verbatim-serializable characters. -/
def safeKey : JKey → Bool
  | .kstr s => safeString s
  | _ => false

mutual

/-- A well-formed JSON-representable normalized value for the round-trip
property: scalars with escape-free strings, lists of such values, dicts
with escape-free string keys. -/
def wfJson : PyVal → Bool
  | .pnull => true
  | .pbool _ => true
  | .pint _ => true
  | .pstr s => safeString s
  | .plist xs => wfJsonElems xs
  | .pdict kvs => wfJsonPairs kvs
  | .nan => false
  | .pts _ => false
  | .pdf _ => false
  | .pseries _ _ => false

def wfJsonElems : List PyVal → Bool
  | [] => true
  | x :: xs => wfJson x && wfJsonElems xs

def wfJsonPairs : List (JKey × PyVal) → Bool
  | [] => true
  | (k, v) :: rest => safeKey k && wfJson v && wfJsonPairs rest

end

/-! ## A total companion of the serializer, for values without Timestamp
keys, and a JSON parser to state the round-trip property. -/

/-- `jsonKeyText` is `dumpKey` on the keys where the latter succeeds. -/
def jsonKeyText : JKey → String
  | .kstr s => quoteStr s
  | .kint n => quoteStr (intRepr n)
  | .kts _ => ""

mutual

/-- Total companion of `dumpsVal`: identical output on every value free
of Timestamp dict keys. -/
def jsonText (ind : Nat) : PyVal → String
  | .pnull => "null"
  | .pbool b => if b then "true" else "false"
  | .pint n => intRepr n
  | .pstr s => quoteStr s
  | .nan => "NaN"
  | .pts s => quoteStr s
  | .pdf _ => quoteStr pandasRepr
  | .pseries _ _ => quoteStr pandasRepr
  | .plist [] => "[]"
  | .plist (x :: xs) =>
      "[\n" ++ jsonTextItems (ind + 2) x xs ++ "\n" ++ spaces ind ++ "]"
  | .pdict [] => "\x7b\x7d"
  | .pdict ((k, v) :: kvs) =>
      "\x7b\n" ++ jsonTextPairs (ind + 2) k v kvs ++ "\n" ++ spaces ind ++ "\x7d"
termination_by v => sizeOf v
decreasing_by all_goals simp_wf; all_goals omega

/-- Total companion of `dumpsItems`. -/
def jsonTextItems (ind : Nat) (x : PyVal) : List PyVal → String
  | [] => spaces ind ++ jsonText ind x
  | y :: ys => spaces ind ++ jsonText ind x ++ ",\n" ++ jsonTextItems ind y ys
termination_by l => 1 + sizeOf x + sizeOf l
decreasing_by all_goals simp_wf; all_goals omega

/-- Total companion of `dumpsPairs`. -/
def jsonTextPairs (ind : Nat) (k : JKey) (v : PyVal) : List (JKey × PyVal) → String
  | [] => spaces ind ++ jsonKeyText k ++ ": " ++ jsonText ind v
  | (k2, v2) :: ps =>
      spaces ind ++ jsonKeyText k ++ ": " ++ jsonText ind v ++ ",\n" ++
      jsonTextPairs ind k2 v2 ps
termination_by l => 1 + sizeOf v + sizeOf l
decreasing_by all_goals simp_wf; all_goals omega

end

/-- JSON insignificant whitespace. -/
def jsonWs (c : Char) : Bool :=
  c.toNat = 32 || c.toNat = 9 || c.toNat = 10 || c.toNat = 13

/-- Skip insignificant whitespace. -/
def skipWs : List Char → List Char
  | [] => []
  | c :: cs => if jsonWs c then skipWs cs else c :: cs

/-- Does the input start with this character? -/
def headIs (c : Char) : List Char → Bool
  | [] => false
  | d :: _ => d = c

/-- Drop a literal character sequence, or fail. -/
def dropLit : List Char → List Char → Option (List Char)
  | [], cs => some cs
  | p :: ps, c :: cs => if c = p then dropLit ps cs else none
  | _ :: _, [] => none

/-- One simple JSON escape after the backslash. -/
def escDecode (e : Char) : Option Char :=
  if e = '"' then some '"'
  else if e = '\\' then some '\\'
  else if e = '/' then some '/'
  else if e = 'n' then some '\n'
  else if e = 't' then some '\t'
  else if e = 'r' then some '\r'
  else if e = 'b' then some (Char.ofNat 8)
  else if e = 'f' then some (Char.ofNat 12)
  else none

/-- The body of a JSON string after the opening quote: verbatim
characters and the simple two-character escapes (\uXXXX is not decoded;
the round-trip theorems restrict strings to verbatim characters). -/
def parseStringBody : List Char → Option (List Char × List Char)
  | [] => none
  | '"' :: rest => some ([], rest)
  | '\\' :: e :: rest2 =>
      match escDecode e with
      | none => none
      | some d =>
          match parseStringBody rest2 with
          | some (s, r) => some (d :: s, r)
          | none => none
  | c :: rest =>
      match parseStringBody rest with
      | some (s, r) => some (c :: s, r)
      | none => none

/-- An ASCII decimal digit. -/
def isDigitB (c : Char) : Bool := decide (48 ≤ c.toNat) && decide (c.toNat ≤ 57)

/-- The value of a digit string, most significant first. -/
def digitsToNat (ds : List Char) : Nat :=
  ds.foldl (fun a c => a * 10 + (c.toNat - 48)) 0

/-- A nonempty run of decimal digits and the remaining input. -/
def parseDigits (cs : List Char) : Option (Nat × List Char) :=
  if (cs.takeWhile isDigitB).isEmpty then none
  else some (digitsToNat (cs.takeWhile isDigitB), cs.dropWhile isDigitB)

mutual

/-- A recursive-descent JSON value parser, fuel-bounded. -/
def parseVal : Nat → List Char → Option (PyVal × List Char)
  | 0, _ => none
  | fuel + 1, cs0 =>
      match skipWs cs0 with
      | [] => none
      | c :: cs =>
          if c = 'n' then
            match dropLit ['u', 'l', 'l'] cs with
            | some rest => some (.pnull, rest)
            | none => none
          else if c = 't' then
            match dropLit ['r', 'u', 'e'] cs with
            | some rest => some (.pbool true, rest)
            | none => none
          else if c = 'f' then
            match dropLit ['a', 'l', 's', 'e'] cs with
            | some rest => some (.pbool false, rest)
            | none => none
          else if c = '"' then
            match parseStringBody cs with
            | some (s, rest) => some (.pstr (String.mk s), rest)
            | none => none
          else if c = '[' then
            let cs2 := skipWs cs
            if headIs ']' cs2 then some (.plist [], cs2.tail)
            else
              match parseItems fuel cs2 with
              | some (xs, rest) => some (.plist xs, rest)
              | none => none
          else if c = '\x7b' then
            let cs2 := skipWs cs
            if headIs '\x7d' cs2 then some (.pdict [], cs2.tail)
            else
              match parseMembers fuel cs2 with
              | some (kvs, rest) => some (.pdict kvs, rest)
              | none => none
          else if c = '-' then
            match parseDigits cs with
            | some (m, rest) => some (.pint (-(m : Int)), rest)
            | none => none
          else if isDigitB c then
            match parseDigits (c :: cs) with
            | some (m, rest) => some (.pint (m : Int), rest)
            | none => none
          else none

/-- The elements of a nonempty JSON array, after the opening bracket. -/
def parseItems : Nat → List Char → Option (List PyVal × List Char)
  | 0, _ => none
  | fuel + 1, cs =>
      match parseVal fuel cs with
      | none => none
      | some (v, r) =>
          let r2 := skipWs r
          if headIs ',' r2 then
            match parseItems fuel r2.tail with
            | some (vs, r3) => some (v :: vs, r3)
            | none => none
          else if headIs ']' r2 then some ([v], r2.tail)
          else none

/-- The members of a nonempty JSON object, after the opening brace. -/
def parseMembers : Nat → List Char → Option (List (JKey × PyVal) × List Char)
  | 0, _ => none
  | fuel + 1, cs =>
      match skipWs cs with
      | [] => none
      | c :: cs2 =>
          if c = '"' then
            match parseStringBody cs2 with
            | some (k, r) =>
                let r2 := skipWs r
                if headIs ':' r2 then
                  match parseVal fuel r2.tail with
                  | some (v, r3) =>
                      let r4 := skipWs r3
                      if headIs ',' r4 then
                        match parseMembers fuel r4.tail with
                        | some (kvs, r5) => some ((.kstr (String.mk k), v) :: kvs, r5)
                        | none => none
                      else if headIs '\x7d' r4 then
                        some ([(.kstr (String.mk k), v)], r4.tail)
                      else none
                  | none => none
                else none
            | none => none
          else none

end

mutual

/-- Fuel sufficient for `parseVal` on the printed form of a value. -/
def nodes : PyVal → Nat
  | .plist xs => 1 + nodesElems xs
  | .pdict kvs => 1 + nodesPairs kvs
  | _ => 1

/-- Fuel sufficient for `parseItems` on a printed nonempty item list. -/
def nodesElems : List PyVal → Nat
  | [] => 0
  | x :: xs => 1 + nodes x + nodesElems xs

/-- Fuel sufficient for `parseMembers` on a printed nonempty member list. -/
def nodesPairs : List (JKey × PyVal) → Nat
  | [] => 0
  | (_, v) :: rest => 1 + nodes v + nodesPairs rest

end

/-- Parse a complete JSON document: one value and trailing whitespace. -/
def parseJson (s : String) : Option PyVal :=
  match parseVal (s.length + 1) s.data with
  | some (v, rest) => if skipWs rest = [] then some v else none
  | none => none

/-- The input begins where a printed JSON value may legitimately stop:
at the end, at a separating comma, or at the newline the pretty-printer
emits before closing a container. -/
def atBoundary : List Char → Bool
  | [] => true
  | c :: _ => c = ',' || c = '\n'

/-- Python dict lookup on the ordered association list (first match). -/
def lookupK (kvs : List (JKey × PyVal)) (k : JKey) : Option PyVal :=
  match kvs.find? (fun p => p.1 == k) with
  | some p => some p.2
  | none => none

mutual

/-- `json.dumps(·, default=str)` succeeds exactly on values with no
Timestamp dict key anywhere. -/
def serializable : PyVal → Bool
  | .plist xs => serializableElems xs
  | .pdict kvs => serializablePairs kvs
  | _ => true

def serializableElems : List PyVal → Bool
  | [] => true
  | x :: xs => serializable x && serializableElems xs

def serializablePairs : List (JKey × PyVal) → Bool
  | [] => true
  | (k, v) :: rest => jsonKey k && serializable v && serializablePairs rest

end

/-! ## Theorems -/

/-- C1: the range resolver of get_historical_prices.  When period is
provided (truthy) and neither date is, the emitted parameters carry the
period and the interval and no dates; in every other case they carry
start, end and interval and no period, a missing end defaulting to today
and a missing start to 365 days before today (both as YYYY-MM-DD), a
supplied date passing through verbatim; period and dates are never
emitted together. -/
theorem resolveHistoryParams_spec :
    ∀ (today : Nat) (period start_date end_date : Option String) (interval : String),
      ((optTruthy period = true ∧ optTruthy start_date = false ∧ optTruthy end_date = false) →
        (resolveHistoryParams today period start_date end_date interval).period = period ∧
        (resolveHistoryParams today period start_date end_date interval).start = none ∧
        (resolveHistoryParams today period start_date end_date interval).endParam = none ∧
        (resolveHistoryParams today period start_date end_date interval).interval = interval)
      ∧ ((optTruthy period = false ∨ optTruthy start_date = true ∨ optTruthy end_date = true) →
        (resolveHistoryParams today period start_date end_date interval).period = none ∧
        (resolveHistoryParams today period start_date end_date interval).interval = interval ∧
        (resolveHistoryParams today period start_date end_date interval).start =
          (if optTruthy start_date then start_date
           else some (formatYMD (today - 365))) ∧
        (resolveHistoryParams today period start_date end_date interval).endParam =
          (if optTruthy end_date then end_date
           else some (formatYMD today)))
      ∧ ¬((resolveHistoryParams today period start_date end_date interval).period.isSome ∧
          ((resolveHistoryParams today period start_date end_date interval).start.isSome ∨
           (resolveHistoryParams today period start_date end_date interval).endParam.isSome)) := by
  intro today period start_date end_date interval
  cases hp : optTruthy period <;> cases hs : optTruthy start_date <;>
    cases he : optTruthy end_date <;>
      simp [resolveHistoryParams, hp, hs, he]

/-- C2 (counterexample): an empty mapping does NOT render as
"No data available"; it renders as the title followed by the empty JSON
object. -/
theorem format_response_empty_mapping_cex :
    format_response (.pdict []) "Financial Data" ≠ "Financial Data: No data available" := by
  have h : format_response (.pdict []) "Financial Data" = "Financial Data:\n\x7b\x7d" := by
    simp [format_response, convert_to_json_serializable, convertPairs, isNoData, dumpsVal]
  rw [h]
  decide

/-- C2 (amended): an empty sequence (also the one an empty DataFrame
normalizes to) and the missing-numeric sentinel (and None) render as
"<title>: No data available", but an empty mapping (also the one an empty
Series normalizes to) renders as the title followed by the empty JSON
object. -/
theorem format_response_empty_inputs :
    ∀ title : String,
      format_response (.plist []) title = title ++ ": No data available" ∧
      format_response .nan title = title ++ ": No data available" ∧
      format_response .pnull title = title ++ ": No data available" ∧
      format_response (.pdict []) title = title ++ ":\n" ++ "\x7b\x7d" ∧
      format_response (.pseries [] []) title = title ++ ":\n" ++ "\x7b\x7d" := by
  intro title
  refine ⟨?_, ?_, ?_, ?_, ?_⟩ <;>
    simp [format_response, convert_to_json_serializable, convertElems, convertPairs,
          isNoData, dumpsVal]

/-- C3: format_response is total and never propagates a failure: every
call lands in exactly one of the four source branches — normalization
failed (caught, error text), no data, serialization failed (caught, error
text), or the pretty-printed JSON — and in each it returns a string of
the documented shape. -/
theorem format_response_never_raises :
    ∀ (data : PyVal) (title : String),
      (∃ e, convert_to_json_serializable data = .error e ∧
        format_response data title = title ++ ": Error formatting data - " ++ e)
      ∨ (∃ j, convert_to_json_serializable data = .ok j ∧ isNoData j = true ∧
        format_response data title = title ++ ": No data available")
      ∨ (∃ j e, convert_to_json_serializable data = .ok j ∧ isNoData j = false ∧
        dumpsVal 0 j = .error e ∧
        format_response data title = title ++ ": Error formatting data - " ++ e)
      ∨ (∃ j s, convert_to_json_serializable data = .ok j ∧ isNoData j = false ∧
        dumpsVal 0 j = .ok s ∧
        format_response data title = title ++ ":\n" ++ s) := by
  intro data title
  cases hc : convert_to_json_serializable data with
  | error e =>
      exact Or.inl ⟨e, rfl, by simp [format_response, hc]⟩
  | ok j =>
      cases hn : isNoData j with
      | true =>
          exact Or.inr (Or.inl ⟨j, rfl, hn, by simp [format_response, hc, hn]⟩)
      | false =>
          cases hd : dumpsVal 0 j with
          | error e =>
              exact Or.inr (Or.inr (Or.inl
                ⟨j, e, rfl, hn, hd, by simp [format_response, hc, hn, hd]⟩))
          | ok s =>
              exact Or.inr (Or.inr (Or.inr
                ⟨j, s, rfl, hn, hd, by simp [format_response, hc, hn, hd]⟩))

/-- C6: the missing-numeric sentinel normalizes to Null and is never
passed through unchanged (the pd.isna check fires before the generic
pass-through case). -/
theorem convert_nan_is_null :
    convert_to_json_serializable .nan = .ok .pnull ∧
    convert_to_json_serializable .nan ≠ .ok .nan := by
  refine ⟨by simp [convert_to_json_serializable], ?_⟩
  intro h
  simp [convert_to_json_serializable] at h

/-! ### Infrastructure: induction over the nested value type, monad
reductions -/

theorem exceptBind_ok {α β : Type} (a : α) (f : α → Except String β) :
    ((Except.ok a : Except String α) >>= f) = f a := rfl

theorem exceptBind_err {α β : Type} (e : String) (f : α → Except String β) :
    ((Except.error e : Except String α) >>= f) = Except.error e := rfl

theorem exceptPure {α : Type} (a : α) :
    (pure a : Except String α) = Except.ok a := rfl

/-- Structural induction over `PyVal` with membership hypotheses for the
nested lists, derived by strong induction on `sizeOf`. -/
theorem PyVal.recOn_mem {P : PyVal → Prop}
    (hnull : P .pnull) (hbool : ∀ b, P (.pbool b)) (hint : ∀ n, P (.pint n))
    (hstr : ∀ s, P (.pstr s)) (hnan : P .nan) (hts : ∀ s, P (.pts s))
    (hlist : ∀ xs, (∀ x ∈ xs, P x) → P (.plist xs))
    (hdict : ∀ kvs, (∀ kv ∈ kvs, P kv.2) → P (.pdict kvs))
    (hdf : ∀ df, P (.pdf df))
    (hser : ∀ keys vals, P (.pseries keys vals)) :
    ∀ v, P v := by
  have key : ∀ n, ∀ v, sizeOf v ≤ n → P v := by
    intro n
    induction n with
    | zero =>
        intro v hv
        exfalso
        cases v <;> simp at hv
    | succ n ih =>
        intro v hv
        cases v with
        | pnull => exact hnull
        | pbool b => exact hbool b
        | pint m => exact hint m
        | pstr s => exact hstr s
        | nan => exact hnan
        | pts s => exact hts s
        | pdf df => exact hdf df
        | pseries ks vs => exact hser ks vs
        | plist xs =>
            refine hlist xs (fun x hx => ih x ?_)
            have h1 : sizeOf x < sizeOf xs := List.sizeOf_lt_of_mem hx
            simp at hv
            omega
        | pdict kvs =>
            refine hdict kvs (fun kv hkv => ih kv.2 ?_)
            have h1 : sizeOf kv < sizeOf kvs := List.sizeOf_lt_of_mem hkv
            have h2 : sizeOf kv.2 < sizeOf kv := by
              cases kv with
              | mk k v => simp
            simp at hv
            omega
  intro v
  exact key (sizeOf v) v le_rfl

theorem isNormalizedElems_iff (xs : List PyVal) :
    isNormalizedElems xs = true ↔ ∀ x ∈ xs, isNormalized x = true := by
  induction xs with
  | nil => simp [isNormalizedElems]
  | cons x xs ih => simp [isNormalizedElems, ih]

theorem isNormalizedPairs_iff (kvs : List (JKey × PyVal)) :
    isNormalizedPairs kvs = true ↔
      ∀ kv ∈ kvs, jsonKey kv.1 = true ∧ isNormalized kv.2 = true := by
  induction kvs with
  | nil => simp [isNormalizedPairs]
  | cons kv rest ih =>
      cases kv with
      | mk k v => simp [isNormalizedPairs, ih, and_assoc]

theorem convertElems_of_all (xs : List PyVal)
    (h : ∀ x ∈ xs, convert_to_json_serializable x = .ok x) :
    convertElems xs = .ok xs := by
  induction xs with
  | nil => simp [convertElems]
  | cons x xs ih =>
      have hx := h x (by simp)
      have hrest := ih (fun y hy => h y (by simp [hy]))
      simp [convertElems, hx, hrest, exceptBind_ok, exceptPure]

theorem convertPairs_of_all (kvs : List (JKey × PyVal))
    (h : ∀ kv ∈ kvs, convert_to_json_serializable kv.2 = .ok kv.2) :
    convertPairs kvs = .ok kvs := by
  induction kvs with
  | nil => simp [convertPairs]
  | cons kv rest ih =>
      cases kv with
      | mk k v =>
          have hv := h (k, v) (by simp)
          have hrest := ih (fun p hp => h p (by simp [hp]))
          simp [convertPairs, hv, hrest, exceptBind_ok, exceptPure]

/-- Normalization is the identity on every already-normalized value. -/
theorem convert_normalized :
    ∀ v, isNormalized v = true → convert_to_json_serializable v = .ok v := by
  intro v
  induction v using PyVal.recOn_mem with
  | hnull => intro _; simp [convert_to_json_serializable]
  | hbool b => intro _; simp [convert_to_json_serializable]
  | hint n => intro _; simp [convert_to_json_serializable]
  | hstr s => intro _; simp [convert_to_json_serializable]
  | hnan => intro h; simp [isNormalized] at h
  | hts s => intro h; simp [isNormalized] at h
  | hdf df => intro h; simp [isNormalized] at h
  | hser ks vs => intro h; simp [isNormalized] at h
  | hlist xs ih =>
      intro h
      have hall : ∀ x ∈ xs, convert_to_json_serializable x = .ok x := fun x hx =>
        ih x hx ((isNormalizedElems_iff xs).1 (by simpa [isNormalized] using h) x hx)
      simp [convert_to_json_serializable, convertElems_of_all xs hall,
            exceptBind_ok, exceptPure]
  | hdict kvs ih =>
      intro h
      have hall : ∀ kv ∈ kvs, convert_to_json_serializable kv.2 = .ok kv.2 := fun kv hkv =>
        ih kv hkv ((isNormalizedPairs_iff kvs).1 (by simpa [isNormalized] using h) kv hkv).2
      simp [convert_to_json_serializable, convertPairs_of_all kvs hall,
            exceptBind_ok, exceptPure]

/-- C7 (amended): normalization is idempotent on already-normalized
JSON-safe values — every such value is returned unchanged, and a second
application changes nothing.  (It is NOT idempotent on arbitrary inputs:
see the counterexample, where a Series keeps its raw NaN value after one
pass and only the second pass nulls it.) -/
theorem convert_idempotent_on_normalized :
    ∀ v, isNormalized v = true →
      convert_to_json_serializable v = .ok v ∧
      (convert_to_json_serializable v).bind convert_to_json_serializable =
        convert_to_json_serializable v := by
  intro v h
  have h1 := convert_normalized v h
  refine ⟨h1, ?_⟩
  rw [h1]
  exact h1

/-- C7 (witness): the idempotence theorem applied at a concrete
normalized mapping. -/
theorem convert_idempotent_on_normalized_witness :
    convert_to_json_serializable (.pdict [(.kstr "a", .pint 3)]) =
      .ok (.pdict [(.kstr "a", .pint 3)]) ∧
    (convert_to_json_serializable (.pdict [(.kstr "a", .pint 3)])).bind
        convert_to_json_serializable =
      convert_to_json_serializable (.pdict [(.kstr "a", .pint 3)]) :=
  convert_idempotent_on_normalized (.pdict [(.kstr "a", .pint 3)])
    (by simp [isNormalized, isNormalizedPairs, jsonKey])

/-- C7 (counterexample): convert(convert(x)) differs from convert(x) at a
Series holding a NaN value — Series.to_dict keeps the raw NaN, which only
a second pass turns into None. -/
theorem convert_not_idempotent_cex :
    (convert_to_json_serializable (.pseries [.kstr "a"] [.snan])).bind
        convert_to_json_serializable
      ≠ convert_to_json_serializable (.pseries [.kstr "a"] [.snan]) := by
  have h1 : convert_to_json_serializable (.pseries [.kstr "a"] [.snan]) =
      .ok (.pdict [(.kstr "a", .nan)]) := by
    simp [convert_to_json_serializable, PyScalar.toVal]
  have h2 : convert_to_json_serializable (.pdict [(.kstr "a", .nan)]) =
      .ok (.pdict [(.kstr "a", .pnull)]) := by
    simp [convert_to_json_serializable, convertPairs, exceptBind_ok, exceptPure]
  rw [h1]
  show convert_to_json_serializable (.pdict [(.kstr "a", .nan)]) ≠
    .ok (.pdict [(.kstr "a", .nan)])
  rw [h2]
  intro h
  simp at h

/-! ### C4 and C5: DataFrame index handling -/

/-- Rows of a reset table: position `i` carries the index value of row
`i` under the index-name key, first in the row-mapping. -/
theorem zipRows_get (ivs : List PyScalar) (rows : List (List PyScalar))
    (nm : String) (cols : List String) (hlen : ivs.length = rows.length) :
    ∀ i, i < rows.length →
      ∃ kvs iv,
        ((List.zipWith (fun iv r => iv :: r) ivs rows).map
          (fun r => PyVal.pdict
            (List.zip ((nm :: cols).map JKey.kstr) (r.map PyScalar.toVal))))[i]? =
          some (.pdict kvs) ∧
        ivs[i]? = some iv ∧ lookupK kvs (.kstr nm) = some iv.toVal := by
  induction ivs generalizing rows with
  | nil =>
      intro i hi
      rw [← hlen] at hi
      simp at hi
  | cons iv ivs ih =>
      cases rows with
      | nil => intro i hi; simp at hi
      | cons r rows =>
          intro i hi
          cases i with
          | zero =>
              refine ⟨(JKey.kstr nm, iv.toVal) ::
                List.zip (cols.map JKey.kstr) (r.map PyScalar.toVal), iv, ?_, by simp, ?_⟩
              · simp [List.zipWith, List.zip]
              · simp [lookupK, List.find?]
          | succ i =>
              have hlen2 : ivs.length = rows.length := by simpa using hlen
              have hi2 : i < rows.length := by simpa using hi
              have := ih rows hlen2 i hi2
              simpa using this

/-- C4: a table with a named index (and a reset that does not collide
with an existing column — pandas raises otherwise and nothing is
emitted) gets the index reinstated as an explicit column: the emitted
value is a row sequence of the table's length in which every row-mapping
holds, under the index name, that row's index value. -/
theorem convert_named_index (df : DataFrame) (nm : String)
    (hname : df.indexName = some nm)
    (hcond : optTruthy df.indexName = true ∨ df.isRange = false)
    (hnocol : nm ∉ df.cols)
    (hlen : df.indexVals.length = df.rows.length) :
    ∃ l, convert_to_json_serializable (.pdf df) = .ok (.plist l) ∧
      l.length = df.rows.length ∧
      ∀ i, i < l.length →
        ∃ kvs iv, l[i]? = some (.pdict kvs) ∧
          df.indexVals[i]? = some iv ∧
          lookupK kvs (.kstr nm) = some iv.toVal := by
  have hcond2 : (optTruthy df.indexName || !df.isRange) = true := by
    rcases hcond with h | h <;> simp [h]
  have hres : resetIndexName df.indexName = nm := by
    simp [resetIndexName, hname]
  refine ⟨(List.zipWith (fun iv r => iv :: r) df.indexVals df.rows).map
    (fun r => PyVal.pdict
      (List.zip ((nm :: df.cols).map JKey.kstr) (r.map PyScalar.toVal))), ?_, ?_, ?_⟩
  · simp [convert_to_json_serializable, hcond2, hres, hnocol, records]
  · simp [hlen]
  · intro i hi
    have hi2 : i < df.rows.length := by
      simpa [hlen] using hi
    exact zipRows_get df.indexVals df.rows nm df.cols hlen i hi2

/-- C4 (witness): the named-index theorem at a one-row table indexed by
symbol. -/
theorem convert_named_index_witness :
    ∃ l, convert_to_json_serializable
        (.pdf { indexName := some "symbol", isRange := false,
                indexVals := [.sstr "AAPL"], cols := ["price"],
                rows := [[.sint 3]] }) = .ok (.plist l) ∧
      l.length = ([[PyScalar.sint 3]] : List (List PyScalar)).length ∧
      ∀ i, i < l.length →
        ∃ kvs iv, l[i]? = some (.pdict kvs) ∧
          ([PyScalar.sstr "AAPL"] : List PyScalar)[i]? = some iv ∧
          lookupK kvs (.kstr "symbol") = some iv.toVal :=
  convert_named_index
    { indexName := some "symbol", isRange := false,
      indexVals := [.sstr "AAPL"], cols := ["price"], rows := [[.sint 3]] }
    "symbol" rfl (Or.inr rfl) (by decide) rfl

/-- C5: a table with an all-default positional index (nameless
RangeIndex) is emitted as a plain row sequence: same length, same order,
each row-mapping pairing exactly the table's own column names with that
row's cells — no synthetic index column. -/
theorem convert_default_index (df : DataFrame)
    (hname : df.indexName = none) (hrange : df.isRange = true)
    (hrows : ∀ r ∈ df.rows, r.length = df.cols.length) :
    ∃ l, convert_to_json_serializable (.pdf df) = .ok (.plist l) ∧
      l.length = df.rows.length ∧
      ∀ i, i < df.rows.length →
        ∃ r, df.rows[i]? = some r ∧
          l[i]? = some (.pdict (List.zip (df.cols.map JKey.kstr) (r.map PyScalar.toVal))) ∧
          (List.zip (df.cols.map JKey.kstr) (r.map PyScalar.toVal)).map Prod.fst =
            df.cols.map JKey.kstr := by
  refine ⟨df.rows.map
    (fun r => PyVal.pdict (List.zip (df.cols.map JKey.kstr) (r.map PyScalar.toVal))),
    ?_, by simp, ?_⟩
  · simp [convert_to_json_serializable, hname, hrange, optTruthy, records]
  · intro i hi
    have hr : df.rows[i]? = some df.rows[i] := List.getElem?_eq_getElem hi
    refine ⟨df.rows[i], hr, ?_, ?_⟩
    · simp [List.getElem?_map, hr]
    · apply List.map_fst_zip
      have hmem : df.rows[i] ∈ df.rows := List.getElem_mem hi
      simp [hrows _ hmem]

/-- C5 (witness): the default-index theorem at a two-row, two-column
table. -/
theorem convert_default_index_witness :
    ∃ l, convert_to_json_serializable
        (.pdf { indexName := none, isRange := true, indexVals := [],
                cols := ["a", "b"],
                rows := [[.sint 1, .sint 2], [.sint 3, .sint 4]] }) =
        .ok (.plist l) ∧
      l.length = ([[PyScalar.sint 1, PyScalar.sint 2],
                   [PyScalar.sint 3, PyScalar.sint 4]] : List (List PyScalar)).length ∧
      ∀ i, i < ([[PyScalar.sint 1, PyScalar.sint 2],
                 [PyScalar.sint 3, PyScalar.sint 4]] : List (List PyScalar)).length →
        ∃ r, ([[PyScalar.sint 1, PyScalar.sint 2],
               [PyScalar.sint 3, PyScalar.sint 4]] : List (List PyScalar))[i]? = some r ∧
          l[i]? = some (.pdict (List.zip ((["a", "b"] : List String).map JKey.kstr)
            (r.map PyScalar.toVal))) ∧
          (List.zip ((["a", "b"] : List String).map JKey.kstr)
            (r.map PyScalar.toVal)).map Prod.fst =
            (["a", "b"] : List String).map JKey.kstr :=
  convert_default_index
    { indexName := none, isRange := true, indexVals := [],
      cols := ["a", "b"], rows := [[.sint 1, .sint 2], [.sint 3, .sint 4]] }
    rfl rfl (by decide)

/-! ### The serializer succeeds and agrees with its total companion on
every value free of Timestamp dict keys -/

theorem serializableElems_iff (xs : List PyVal) :
    serializableElems xs = true ↔ ∀ x ∈ xs, serializable x = true := by
  induction xs with
  | nil => simp [serializableElems]
  | cons x xs ih => simp [serializableElems, ih]

theorem serializablePairs_iff (kvs : List (JKey × PyVal)) :
    serializablePairs kvs = true ↔
      ∀ kv ∈ kvs, jsonKey kv.1 = true ∧ serializable kv.2 = true := by
  induction kvs with
  | nil => simp [serializablePairs]
  | cons kv rest ih =>
      cases kv with
      | mk k v => simp [serializablePairs, ih, and_assoc]

theorem dumpKey_eq_jsonKeyText (k : JKey) (h : jsonKey k = true) :
    dumpKey k = .ok (jsonKeyText k) := by
  cases k <;> simp_all [jsonKey, dumpKey, jsonKeyText]

theorem dumpsItems_of_all (ind : Nat) :
    ∀ (xs : List PyVal) (x : PyVal),
      (∀ y ∈ x :: xs, ∀ ind2, dumpsVal ind2 y = .ok (jsonText ind2 y)) →
      dumpsItems ind x xs = .ok (jsonTextItems ind x xs) := by
  intro xs
  induction xs with
  | nil =>
      intro x h
      have hx := h x (by simp) ind
      simp [dumpsItems, jsonTextItems, hx, exceptBind_ok, exceptPure]
  | cons y ys ih =>
      intro x h
      have hx := h x (by simp) ind
      have hrest := ih y (fun z hz => h z (List.mem_cons_of_mem x hz))
      simp [dumpsItems, jsonTextItems, hx, hrest, exceptBind_ok, exceptPure]

theorem dumpsPairs_of_all (ind : Nat) :
    ∀ (ps : List (JKey × PyVal)) (k : JKey) (v : PyVal),
      (∀ p ∈ (k, v) :: ps, jsonKey p.1 = true ∧
        ∀ ind2, dumpsVal ind2 p.2 = .ok (jsonText ind2 p.2)) →
      dumpsPairs ind k v ps = .ok (jsonTextPairs ind k v ps) := by
  intro ps
  induction ps with
  | nil =>
      intro k v h
      have hk := dumpKey_eq_jsonKeyText k (h (k, v) (by simp)).1
      have hv := (h (k, v) (by simp)).2 ind
      simp [dumpsPairs, jsonTextPairs, hk, hv, exceptBind_ok, exceptPure]
  | cons p ps ih =>
      cases p with
      | mk k2 v2 =>
          intro k v h
          have hk := dumpKey_eq_jsonKeyText k (h (k, v) (by simp)).1
          have hv := (h (k, v) (by simp)).2 ind
          have hrest := ih k2 v2 (fun q hq => h q (by
            rcases List.mem_cons.mp hq with h1 | h1
            · simp [h1]
            · simp [h1]))
          simp [dumpsPairs, jsonTextPairs, hk, hv, hrest, exceptBind_ok, exceptPure]

/-- On every Timestamp-key-free value the fallible serializer succeeds
and produces exactly the total companion's text. -/
theorem dumpsVal_eq_jsonText :
    ∀ v, serializable v = true → ∀ ind, dumpsVal ind v = .ok (jsonText ind v) := by
  intro v
  induction v using PyVal.recOn_mem with
  | hnull => intro _ ind; simp [dumpsVal, jsonText]
  | hbool b => intro _ ind; simp [dumpsVal, jsonText]
  | hint n => intro _ ind; simp [dumpsVal, jsonText]
  | hstr s => intro _ ind; simp [dumpsVal, jsonText]
  | hnan => intro _ ind; simp [dumpsVal, jsonText]
  | hts s => intro _ ind; simp [dumpsVal, jsonText]
  | hdf df => intro _ ind; simp [dumpsVal, jsonText]
  | hser ks vs => intro _ ind; simp [dumpsVal, jsonText]
  | hlist xs ih =>
      intro h ind
      cases xs with
      | nil => simp [dumpsVal, jsonText]
      | cons x rest =>
          have hall : ∀ y ∈ x :: rest, ∀ ind2, dumpsVal ind2 y = .ok (jsonText ind2 y) :=
            fun y hy => ih y hy ((serializableElems_iff (x :: rest)).1
              (by simpa [serializable] using h) y hy)
          have := dumpsItems_of_all (ind + 2) rest x hall
          simp [dumpsVal, jsonText, this, exceptBind_ok, exceptPure]
  | hdict kvs ih =>
      intro h ind
      cases kvs with
      | nil => simp [dumpsVal, jsonText]
      | cons kv rest =>
          cases kv with
          | mk k v =>
              have hfacts := (serializablePairs_iff ((k, v) :: rest)).1
                (by simpa [serializable] using h)
              have hall : ∀ p ∈ (k, v) :: rest, jsonKey p.1 = true ∧
                  ∀ ind2, dumpsVal ind2 p.2 = .ok (jsonText ind2 p.2) :=
                fun p hp => ⟨(hfacts p hp).1, ih p hp (hfacts p hp).2⟩
              have := dumpsPairs_of_all (ind + 2) rest k v hall
              simp [dumpsVal, jsonText, this, exceptBind_ok, exceptPure]

/-! ### C9: search_symbols -/

/-- Every formatted quote is Timestamp-key free. -/
theorem serializable_formatQuote (q : List (String × String)) :
    serializable (formatQuote q) = true := by
  simp [formatQuote, serializable, serializablePairs, jsonKey]

theorem serializable_formatted (quotes : List (List (String × String))) :
    serializable (.plist (quotes.map formatQuote)) = true := by
  simp only [serializable]
  induction quotes with
  | nil => simp [serializableElems]
  | cons q rest ih =>
      simp [serializableElems, serializable_formatQuote q, ih]

/-- C9: search_symbols formats at most the first ten quotes, in order,
each reduced to exactly the four fields symbol, name, type, exchange,
with a missing symbol field becoming the empty string, and renders them
after the "Search Results" banner. -/
theorem search_symbols_spec :
    ∀ (query : String) (quotes : List (List (String × String))),
      ∃ s, search_symbols query (some quotes) =
          "Search Results for '" ++ query ++ "':\n" ++ s ∧
        ((quotes.take 10).map formatQuote).length ≤ 10 ∧
        ((quotes.take 10).map formatQuote).length = min 10 quotes.length ∧
        (∀ i, i < min 10 quotes.length →
          ∃ q, quotes[i]? = some q ∧
            ((quotes.take 10).map formatQuote)[i]? = some (formatQuote q)) ∧
        (∀ q, ∃ kvs, formatQuote q = .pdict kvs ∧
          kvs.map Prod.fst =
            [.kstr "symbol", .kstr "name", .kstr "type", .kstr "exchange"] ∧
          ((∀ kv ∈ q, kv.1 ≠ "symbol") →
            lookupK kvs (.kstr "symbol") = some (.pstr ""))) := by
  intro query quotes
  have hser := serializable_formatted (quotes.take 10)
  have hdump := dumpsVal_eq_jsonText _ hser 0
  refine ⟨jsonText 0 (.plist ((quotes.take 10).map formatQuote)), ?_, ?_, ?_, ?_, ?_⟩
  · simp only [search_symbols]
    rw [hdump]
  · simp [List.length_take]
  · simp [List.length_take]
  · intro i hi
    have hiq : i < quotes.length := lt_of_lt_of_le hi (by omega)
    refine ⟨quotes[i], List.getElem?_eq_getElem hiq, ?_⟩
    have h10 : i < 10 := lt_of_lt_of_le hi (by omega)
    simp [List.getElem?_map, List.getElem?_take, h10, List.getElem?_eq_getElem hiq]
  · intro q
    refine ⟨_, rfl, by simp [formatQuote], ?_⟩
    intro hmiss
    have hfind : q.find? (fun p => p.1 == "symbol") = none := by
      rw [List.find?_eq_none]
      intro p hp
      simpa using hmiss p hp
    simp [lookupK, formatQuote, quoteGet, hfind, List.find?]

/-! ### C10: the symbols argument -/

theorem toNat_ofNat_valid (n : Nat) (h : n.isValidChar) : (Char.ofNat n).toNat = n := by
  simp only [Char.ofNat, h, dif_pos, Char.ofNatAux, Char.toNat]
  exact BitVec.toNat_ofNatLt _ _

theorem headNotWs_dropWhile (l : List Char) :
    headNotWs (l.dropWhile pyWs) = true := by
  induction l with
  | nil => rfl
  | cons c cs ih =>
      by_cases h : pyWs c = true
      · simpa [List.dropWhile, h] using ih
      · simp [List.dropWhile, h, headNotWs]

theorem getLast?_dropWhile (p : Char → Bool) (l : List Char)
    (h : l.dropWhile p ≠ []) : (l.dropWhile p).getLast? = l.getLast? := by
  induction l with
  | nil => simp at h
  | cons c cs ih =>
      by_cases hc : p c = true
      · have hcs : cs.dropWhile p ≠ [] := by simpa [List.dropWhile, hc] using h
        have hne : cs ≠ [] := by
          intro hnil
          rw [hnil] at hcs
          simp at hcs
        rw [List.dropWhile_cons_of_pos hc, ih hcs]
        cases cs with
        | nil => simp at hne
        | cons d ds => simp [List.getLast?_cons_cons]
      · simp [List.dropWhile_cons_of_neg hc]

/-- Stripping leaves no whitespace on either edge. -/
theorem edgeClean_pyStrip (u : String) : edgeClean (pyStrip u) = true := by
  unfold edgeClean pyStrip
  set a := u.data.dropWhile pyWs with ha
  set b := a.reverse.dropWhile pyWs with hb
  have hback : headNotWs b = true := by rw [hb]; exact headNotWs_dropWhile _
  rcases Classical.em (b = []) with hbe | hbe
  · simp [hbe, headNotWs]
  · have hfront : headNotWs b.reverse = true := by
      have h1 : b.reverse.head? = b.getLast? := List.head?_reverse b
      have h2 : b.getLast? = a.reverse.getLast? := by rw [hb]; exact getLast?_dropWhile pyWs a.reverse hbe
      have h3 : a.reverse.getLast? = a.head? := List.getLast?_reverse a
      have h4 : headNotWs a = true := by rw [ha]; exact headNotWs_dropWhile _
      unfold headNotWs at h4 ⊢
      rw [h1, h2, h3]
      exact h4
    simp [hfront, hback]

/-- Upper-casing maps whitespace to itself and non-whitespace to
non-whitespace. -/
theorem pyWs_pyUpperChar (c : Char) : pyWs (pyUpperChar c) = pyWs c := by
  by_cases h : 97 ≤ c.toNat ∧ c.toNat ≤ 122
  · have hv : (Char.ofNat (c.toNat - 32)).toNat = c.toNat - 32 :=
      toNat_ofNat_valid _ (Or.inl (by omega))
    rw [Bool.eq_iff_iff]
    simp [pyUpperChar, h, pyWs, hv]
    omega
  · simp [pyUpperChar, h]

theorem headNotWs_map_upper (l : List Char) :
    headNotWs (l.map pyUpperChar) = headNotWs l := by
  cases l with
  | nil => rfl
  | cons c cs => simp [headNotWs, pyWs_pyUpperChar]

/-- Upper-casing preserves clean edges. -/
theorem edgeClean_pyUpper (u : String) (h : edgeClean u = true) :
    edgeClean (pyUpper u) = true := by
  unfold edgeClean at h ⊢
  rw [Bool.and_eq_true] at h
  have h1 : headNotWs (u.data.map pyUpperChar) = true := by
    rw [headNotWs_map_upper]; exact h.1
  have h2 : headNotWs ((u.data.map pyUpperChar).reverse) = true := by
    rw [← List.map_reverse, headNotWs_map_upper]; exact h.2
  simp [pyUpper, h1, h2]

/-- Upper-casing leaves no lowercase ASCII letter. -/
theorem noLowerAscii_pyUpper (u : String) : noLowerAscii (pyUpper u) = true := by
  unfold noLowerAscii pyUpper
  simp only [List.all_eq_true, List.mem_map]
  rintro c ⟨d, _, rfl⟩
  by_cases h : 97 ≤ d.toNat ∧ d.toNat ≤ 122
  · have hv : (Char.ofNat (d.toNat - 32)).toNat = d.toNat - 32 :=
      toNat_ofNat_valid _ (Or.inl (by omega))
    simp [pyUpperChar, h, hv]
    omega
  · simp [pyUpperChar, h]
    omega

/-- C10: the symbol list every tool sends upstream is obtained by
splitting on commas, stripping each token, and upper-casing it: the
characterization, the token count, clean edges and no lowercase ASCII in
every emitted token, and the concrete example. -/
theorem tickerList_spec :
    ∀ s : String,
      tickerList s = (pySplitComma s).map (fun t => pyUpper (pyStrip t)) ∧
      (tickerList s).length = (pySplitComma s).length ∧
      (∀ t ∈ tickerList s, edgeClean t = true) ∧
      (∀ t ∈ tickerList s, noLowerAscii t = true) ∧
      tickerList "aapl, googl" = ["AAPL", "GOOGL"] := by
  intro s
  refine ⟨rfl, by simp [tickerList], ?_, ?_, by decide⟩
  · intro t ht
    obtain ⟨u, _, rfl⟩ := List.mem_map.mp ht
    exact edgeClean_pyUpper _ (edgeClean_pyStrip u)
  · intro t ht
    obtain ⟨u, _, rfl⟩ := List.mem_map.mp ht
    exact noLowerAscii_pyUpper _

/-! ### C8 groundwork: characters, whitespace skipping, string bodies,
digits -/

theorem char_eq_iff_toNat {c d : Char} : c = d ↔ c.toNat = d.toNat := by
  rw [Char.ext_iff, UInt32.ext_iff]
  exact Iff.rfl

theorem char_ne_of_toNat_ne {c d : Char} (h : c.toNat ≠ d.toNat) : c ≠ d :=
  fun he => h (by rw [he])

theorem skipWs_append_of_ws (pre t : List Char) (h : ∀ c ∈ pre, jsonWs c = true) :
    skipWs (pre ++ t) = skipWs t := by
  induction pre with
  | nil => rfl
  | cons c cs ih =>
      have hc := h c (by simp)
      rw [List.cons_append]
      simp only [skipWs, hc, if_pos]
      exact ih (fun d hd => h d (by simp [hd]))

theorem skipWs_cons_of_not (c : Char) (t : List Char) (h : jsonWs c = false) :
    skipWs (c :: t) = c :: t := by
  simp [skipWs, h]

theorem skipWs_skipWs (t : List Char) : skipWs (skipWs t) = skipWs t := by
  induction t with
  | nil => rfl
  | cons c cs ih =>
      by_cases h : jsonWs c = true
      · simp [skipWs, h, ih]
      · simp only [Bool.not_eq_true] at h
        simp [skipWs, h]

theorem parseVal_ws_front (f : Nat) (pre t : List Char)
    (h : ∀ c ∈ pre, jsonWs c = true) :
    parseVal f (pre ++ t) = parseVal f t := by
  cases f with
  | zero => rfl
  | succ g =>
      simp only [parseVal]
      rw [skipWs_append_of_ws pre t h]

theorem parseVal_skipWs (f : Nat) (t : List Char) :
    parseVal f (skipWs t) = parseVal f t := by
  cases f with
  | zero => rfl
  | succ g =>
      simp only [parseVal]
      rw [skipWs_skipWs]

theorem parseItems_skipWs (f : Nat) (t : List Char) :
    parseItems f (skipWs t) = parseItems f t := by
  cases f with
  | zero => rfl
  | succ g =>
      simp only [parseItems]
      rw [parseVal_skipWs]

theorem parseMembers_skipWs (f : Nat) (t : List Char) :
    parseMembers f (skipWs t) = parseMembers f t := by
  cases f with
  | zero => rfl
  | succ g =>
      simp only [parseMembers]
      rw [skipWs_skipWs]

theorem spaces_ws (n : Nat) : ∀ c ∈ (spaces n).data, jsonWs c = true := by
  intro c hc
  simp [spaces] at hc
  rw [hc.2]
  rfl

/-- On a verbatim-serializable character the escape map is the identity. -/
theorem escapeChar_safe (c : Char) (h : safeChar c = true) :
    escapeChar c = String.singleton c := by
  simp only [safeChar, Bool.and_eq_true, decide_eq_true_eq] at h
  obtain ⟨⟨⟨h32, h126⟩, h34⟩, h92⟩ := h
  have hq : ¬(c = '"') := char_ne_of_toNat_ne (by show c.toNat ≠ 34; omega)
  have hb : ¬(c = '\\') := char_ne_of_toNat_ne (by show c.toNat ≠ 92; omega)
  have hn : ¬(c = '\n') := char_ne_of_toNat_ne (by show c.toNat ≠ 10; omega)
  have ht : ¬(c = '\t') := char_ne_of_toNat_ne (by show c.toNat ≠ 9; omega)
  have hr : ¬(c = '\r') := char_ne_of_toNat_ne (by show c.toNat ≠ 13; omega)
  simp only [escapeChar, if_neg hq, if_neg hb, if_neg hn, if_neg ht, if_neg hr,
             if_neg (show ¬(c.toNat = 8) by omega), if_neg (show ¬(c.toNat = 12) by omega),
             if_pos (show 32 ≤ c.toNat ∧ c.toNat ≤ 126 from ⟨h32, h126⟩)]

theorem join_map_singleton (l : List Char) :
    (String.join (l.map String.singleton)).data = l := by
  have key : ∀ (t : List Char) (acc : String),
      ((t.map String.singleton).foldl (· ++ ·) acc).data = acc.data ++ t := by
    intro t
    induction t with
    | nil => intro acc; simp
    | cons c cs ih =>
        intro acc
        simp [ih, String.data_append, String.singleton]
  have := key l ""
  simpa [String.join] using this

theorem flatten_map_singleton (l : List Char) : (l.map (fun c => [c])).flatten = l := by
  induction l with
  | nil => rfl
  | cons c cs ih => simp [ih]

/-- The quoted form of a safe string is verbatim between two quotes. -/
theorem quoteStr_safe (s : String) (h : safeString s = true) :
    (quoteStr s).data = '"' :: s.data ++ ['"'] := by
  have hall : ∀ c ∈ s.data, safeChar c = true := by
    simpa [safeString, List.all_eq_true] using h
  have hmap : s.data.map escapeChar = s.data.map String.singleton := by
    apply List.map_congr_left
    intro c hc
    exact escapeChar_safe c (hall c hc)
  simp [quoteStr, hmap, String.data_append]
  have h2 : (String.data ∘ String.singleton) = (fun c : Char => [c]) := funext fun c => rfl
  rw [h2, flatten_map_singleton]

theorem parseStringBody_safe :
    ∀ (l : List Char) (rest : List Char),
      (∀ c ∈ l, safeChar c = true) →
      parseStringBody (l ++ '"' :: rest) = some (l, rest) := by
  intro l
  induction l with
  | nil => intro rest _; rfl
  | cons c cs ih =>
      intro rest h
      have hc := h c (by simp)
      simp only [safeChar, Bool.and_eq_true, decide_eq_true_eq] at hc
      have hq : ¬(c = '"') := char_ne_of_toNat_ne (by show c.toNat ≠ 34; omega)
      have hb : ¬(c = '\\') := char_ne_of_toNat_ne (by show c.toNat ≠ 92; omega)
      rw [List.cons_append,
          parseStringBody.eq_4 c _ (fun hh => hq hh) (fun _ _ hh _ => hb hh),
          ih rest (fun d hd => h d (by simp [hd]))]

theorem decDigit_toNat (k : Nat) (h : k < 10) : (decDigit k).toNat = 48 + k :=
  toNat_ofNat_valid _ (Or.inl (by omega))

theorem decDigit_isDigit (k : Nat) (h : k < 10) : isDigitB (decDigit k) = true := by
  simp [isDigitB, decDigit_toNat k h]
  omega

theorem natDecDigits_ne_nil (n : Nat) : natDecDigits n ≠ [] := by
  rw [natDecDigits]
  split <;> simp

theorem natDecDigits_all_digits :
    ∀ n, ∀ c ∈ natDecDigits n, isDigitB c = true := by
  intro n
  induction n using Nat.strong_induction_on with
  | _ n ih =>
      by_cases h : n < 10
      · rw [natDecDigits, if_pos h]
        intro c hc
        simp at hc
        subst hc
        exact decDigit_isDigit n h
      · rw [natDecDigits, if_neg h]
        intro c hc
        rcases List.mem_append.mp hc with h1 | h1
        · exact ih (n / 10) (Nat.div_lt_self (by omega) (by omega)) c h1
        · simp at h1
          subst h1
          exact decDigit_isDigit (n % 10) (by omega)

theorem digitsToNat_append_digit (ds : List Char) (c : Char) :
    digitsToNat (ds ++ [c]) = 10 * digitsToNat ds + (c.toNat - 48) := by
  simp [digitsToNat, List.foldl_append]
  omega

theorem digitsToNat_natDecDigits : ∀ n, digitsToNat (natDecDigits n) = n := by
  intro n
  induction n using Nat.strong_induction_on with
  | _ n ih =>
      by_cases h : n < 10
      · rw [natDecDigits, if_pos h]
        simp [digitsToNat, decDigit_toNat n h]
      · rw [natDecDigits, if_neg h, digitsToNat_append_digit,
            ih (n / 10) (Nat.div_lt_self (by omega) (by omega)),
            decDigit_toNat (n % 10) (by omega)]
        omega

theorem takeWhile_digits (ds rest : List Char)
    (hall : ∀ c ∈ ds, isDigitB c = true) (hrest : atBoundary rest = true) :
    (ds ++ rest).takeWhile isDigitB = ds ∧ (ds ++ rest).dropWhile isDigitB = rest := by
  induction ds with
  | nil =>
      cases rest with
      | nil => simp
      | cons c cs =>
          have hc : isDigitB c = false := by
            simp [atBoundary] at hrest
            rcases hrest with h | h <;> subst h <;> decide
          simp [List.takeWhile, List.dropWhile, hc]
  | cons d ds ih =>
      have hd := hall d (by simp)
      have := ih (fun c hc => hall c (by simp [hc]))
      simp [List.takeWhile, List.dropWhile, hd, this.1, this.2]

theorem parseDigits_round (ds rest : List Char)
    (hall : ∀ c ∈ ds, isDigitB c = true) (hne : ds ≠ [])
    (hrest : atBoundary rest = true) :
    parseDigits (ds ++ rest) = some (digitsToNat ds, rest) := by
  obtain ⟨ht, hd⟩ := takeWhile_digits ds rest hall hrest
  simp [parseDigits, ht, hd, hne]

theorem nodes_pos (v : PyVal) : 1 ≤ nodes v := by
  cases v <;> simp [nodes]

/-! Data of the string literals the printer uses, for rewriting. -/

theorem data_null : ("null" : String).data = ['n', 'u', 'l', 'l'] := rfl
theorem data_true : ("true" : String).data = ['t', 'r', 'u', 'e'] := rfl
theorem data_false : ("false" : String).data = ['f', 'a', 'l', 's', 'e'] := rfl
theorem data_nanLit : ("NaN" : String).data = ['N', 'a', 'N'] := rfl
theorem data_emptyArr : ("[]" : String).data = ['[', ']'] := rfl
theorem data_emptyObj : ("\x7b\x7d" : String).data = ['\x7b', '\x7d'] := rfl
theorem data_openArr : ("[\n" : String).data = ['[', '\n'] := rfl
theorem data_openObj : ("\x7b\n" : String).data = ['\x7b', '\n'] := rfl
theorem data_closeArr : ("]" : String).data = [']'] := rfl
theorem data_closeObj : ("\x7d" : String).data = ['\x7d'] := rfl
theorem data_nl : ("\n" : String).data = ['\n'] := rfl
theorem data_commaNl : (",\n" : String).data = [',', '\n'] := rfl
theorem data_colonSp : (": " : String).data = [':', ' '] := rfl
theorem data_quote : ("\"" : String).data = ['"'] := rfl
theorem data_dash : ("-" : String).data = ['-'] := rfl

theorem quoteStr_data_head (s : String) :
    (quoteStr s).data = '"' :: ((String.join (s.data.map escapeChar)).data ++ ['"']) := by
  simp [quoteStr, String.data_append, data_quote]

/-- The first character of any printed value: never whitespace, never a
closing bracket or brace. -/
theorem jsonText_head (ind : Nat) (v : PyVal) :
    ∃ c t, (jsonText ind v).data = c :: t ∧ jsonWs c = false ∧
      c ≠ ']' ∧ c ≠ '\x7d' := by
  cases v with
  | pnull =>
      refine ⟨'n', ['u', 'l', 'l'], ?_, by decide, by decide, by decide⟩
      simp [jsonText, data_null]
  | pbool b =>
      cases b with
      | true =>
          refine ⟨'t', ['r', 'u', 'e'], ?_, by decide, by decide, by decide⟩
          simp [jsonText, data_true]
      | false =>
          refine ⟨'f', ['a', 'l', 's', 'e'], ?_, by decide, by decide, by decide⟩
          simp [jsonText, data_false]
  | pint n =>
      by_cases hn : n < 0
      · refine ⟨'-', (natDecDigits (-n).toNat), ?_, by decide, by decide, by decide⟩
        simp [jsonText, intRepr, hn, String.data_append, data_dash]
      · cases hd : natDecDigits n.toNat with
        | nil => exact absurd hd (natDecDigits_ne_nil _)
        | cons c t =>
            have hdig : isDigitB c = true := by
              apply natDecDigits_all_digits n.toNat
              rw [hd]
              simp
            simp only [isDigitB, Bool.and_eq_true, decide_eq_true_eq] at hdig
            refine ⟨c, t, ?_, ?_, ?_, ?_⟩
            · simp [jsonText, intRepr, hn, hd]
            · rw [Bool.eq_false_iff]
              intro hws
              simp only [jsonWs, Bool.or_eq_true, decide_eq_true_eq] at hws
              omega
            · exact char_ne_of_toNat_ne (by show c.toNat ≠ 93; omega)
            · exact char_ne_of_toNat_ne (by show c.toNat ≠ 125; omega)
  | pstr s =>
      refine ⟨'"', (String.join (s.data.map escapeChar)).data ++ ['"'], ?_,
        by decide, by decide, by decide⟩
      have hj : jsonText ind (.pstr s) = quoteStr s := by simp [jsonText]
      rw [hj]
      exact quoteStr_data_head s
  | nan =>
      refine ⟨'N', ['a', 'N'], ?_, by decide, by decide, by decide⟩
      simp [jsonText, data_nanLit]
  | pts s =>
      refine ⟨'"', (String.join (s.data.map escapeChar)).data ++ ['"'], ?_,
        by decide, by decide, by decide⟩
      have hj : jsonText ind (.pts s) = quoteStr s := by simp [jsonText]
      rw [hj]
      exact quoteStr_data_head s
  | pdf df =>
      refine ⟨'"', (String.join (pandasRepr.data.map escapeChar)).data ++ ['"'], ?_,
        by decide, by decide, by decide⟩
      have hj : jsonText ind (.pdf df) = quoteStr pandasRepr := by simp [jsonText]
      rw [hj]
      exact quoteStr_data_head pandasRepr
  | pseries ks vs =>
      refine ⟨'"', (String.join (pandasRepr.data.map escapeChar)).data ++ ['"'], ?_,
        by decide, by decide, by decide⟩
      have hj : jsonText ind (.pseries ks vs) = quoteStr pandasRepr := by simp [jsonText]
      rw [hj]
      exact quoteStr_data_head pandasRepr
  | plist xs =>
      cases xs with
      | nil =>
          refine ⟨'[', [']'], ?_, by decide, by decide, by decide⟩
          simp [jsonText, data_emptyArr]
      | cons x rest =>
          refine ⟨'[', '\n' :: ((jsonTextItems (ind + 2) x rest).data ++
            '\n' :: ((spaces ind).data ++ [']'])), ?_, by decide, by decide, by decide⟩
          simp [jsonText, String.data_append, data_openArr, data_nl, data_closeArr]
  | pdict kvs =>
      cases kvs with
      | nil =>
          refine ⟨'\x7b', ['\x7d'], ?_, by decide, by decide, by decide⟩
          simp [jsonText, data_emptyObj]
      | cons kv rest =>
          cases kv with
          | mk k v =>
              refine ⟨'\x7b', '\n' :: ((jsonTextPairs (ind + 2) k v rest).data ++
                '\n' :: ((spaces ind).data ++ ['\x7d'])), ?_, by decide, by decide, by decide⟩
              simp [jsonText, String.data_append, data_openObj, data_nl, data_closeObj]

/-- The items of a printed nonempty array parse back, consuming the
closing bracket. -/
theorem parseItems_round (ind : Nat) :
    ∀ (xs : List PyVal) (x : PyVal),
      (∀ y ∈ x :: xs, ∀ ind2 f2 (pre2 rest2 : List Char), nodes y ≤ f2 →
        (∀ c ∈ pre2, jsonWs c = true) → atBoundary rest2 = true →
        parseVal f2 (pre2 ++ (jsonText ind2 y).data ++ rest2) = some (y, rest2)) →
      ∀ (f : Nat) (pre wsC rest : List Char),
        nodesElems (x :: xs) ≤ f →
        (∀ c ∈ pre, jsonWs c = true) → (∀ c ∈ wsC, jsonWs c = true) →
        parseItems f (pre ++ (jsonTextItems ind x xs).data ++ '\n' :: wsC ++ ']' :: rest)
          = some (x :: xs, rest) := by
  intro xs
  induction xs with
  | nil =>
      intro x hVP f pre wsC rest hf hpre hwsC
      cases f with
      | zero => simp [nodesElems] at hf
      | succ g =>
          have hg : nodes x ≤ g := by
            simp [nodesElems] at hf
            omega
          have hprews : ∀ c ∈ pre ++ (spaces ind).data, jsonWs c = true := by
            intro c hc
            rcases List.mem_append.mp hc with h1 | h1
            · exact hpre c h1
            · exact spaces_ws ind c h1
          have h1 := hVP x (by simp) ind g (pre ++ (spaces ind).data)
            ('\n' :: (wsC ++ ']' :: rest)) hg hprews (by simp [atBoundary])
          have hskip : skipWs ('\n' :: (wsC ++ ']' :: rest)) = ']' :: rest := by
            rw [show ('\n' :: (wsC ++ ']' :: rest)) = (('\n' :: wsC) ++ (']' :: rest)) by simp]
            rw [skipWs_append_of_ws ('\n' :: wsC) (']' :: rest) ?hws,
                skipWs_cons_of_not ']' rest (by decide)]
            case hws =>
              intro c hc
              rcases List.mem_cons.mp hc with h2 | h2
              · rw [h2]; rfl
              · exact hwsC c h2
          simp only [parseItems]
          simp only [jsonTextItems, String.data_append, List.append_assoc,
            List.cons_append, List.nil_append] at h1 ⊢
          rw [h1]
          simp [hskip, headIs]
  | cons y ys ih =>
      intro x hVP f pre wsC rest hf hpre hwsC
      cases f with
      | zero => simp [nodesElems] at hf
      | succ g =>
          have hg : nodes x ≤ g := by
            simp [nodesElems] at hf
            omega
          have hgrest : nodesElems (y :: ys) ≤ g := by
            simp [nodesElems] at hf ⊢
            omega
          have hprews : ∀ c ∈ pre ++ (spaces ind).data, jsonWs c = true := by
            intro c hc
            rcases List.mem_append.mp hc with h1 | h1
            · exact hpre c h1
            · exact spaces_ws ind c h1
          have h1 := hVP x (by simp) ind g (pre ++ (spaces ind).data)
            (',' :: '\n' :: ((jsonTextItems ind y ys).data ++ '\n' :: (wsC ++ ']' :: rest)))
            hg hprews (by simp [atBoundary])
          have h2 := ih y (fun z hz => hVP z (List.mem_cons_of_mem x hz)) g
            ['\n'] wsC rest hgrest (by intro c hc; simp at hc; rw [hc]; rfl) hwsC
          simp only [parseItems]
          simp only [jsonTextItems, String.data_append, data_commaNl, List.append_assoc,
            List.cons_append, List.nil_append] at h1 h2 ⊢
          rw [h1]
          have hcomma : jsonWs ',' = false := by decide
          simp [skipWs_cons_of_not, hcomma, headIs, h2]

theorem string_mk_data (s : String) : String.mk s.data = s := rfl

/-- The members of a printed nonempty object parse back, consuming the
closing brace. -/
theorem parseMembers_round (ind : Nat) :
    ∀ (ps : List (JKey × PyVal)) (k : JKey) (v : PyVal),
      (∀ p ∈ (k, v) :: ps, safeKey p.1 = true ∧
        ∀ ind2 f2 (pre2 rest2 : List Char), nodes p.2 ≤ f2 →
          (∀ c ∈ pre2, jsonWs c = true) → atBoundary rest2 = true →
          parseVal f2 (pre2 ++ (jsonText ind2 p.2).data ++ rest2) = some (p.2, rest2)) →
      ∀ (f : Nat) (pre wsC rest : List Char),
        nodesPairs ((k, v) :: ps) ≤ f →
        (∀ c ∈ pre, jsonWs c = true) → (∀ c ∈ wsC, jsonWs c = true) →
        parseMembers f (pre ++ (jsonTextPairs ind k v ps).data ++ '\n' :: wsC ++ '\x7d' :: rest)
          = some ((k, v) :: ps, rest) := by
  intro ps
  induction ps with
  | nil =>
      intro k v hVP f pre wsC rest hf hpre hwsC
      cases f with
      | zero => simp [nodesPairs] at hf
      | succ g =>
          obtain ⟨hkey, hvp⟩ := hVP (k, v) (by simp)
          obtain ⟨s, hks, hsafe⟩ : ∃ s, k = .kstr s ∧ safeString s = true := by
            cases k with
            | kstr s => exact ⟨s, rfl, by simpa [safeKey] using hkey⟩
            | kint n => simp [safeKey] at hkey
            | kts s => simp [safeKey] at hkey
          subst hks
          have hg : nodes v ≤ g := by
            simp [nodesPairs] at hf
            omega
          have hsdata : ∀ c ∈ s.data, safeChar c = true := by
            simpa [safeString, List.all_eq_true] using hsafe
          have hprews : ∀ c ∈ pre ++ (spaces ind).data, jsonWs c = true := by
            intro c hc
            rcases List.mem_append.mp hc with h1 | h1
            · exact hpre c h1
            · exact spaces_ws ind c h1
          have hquote := quoteStr_data_head s
          have hjoin : (String.join (s.data.map escapeChar)).data = s.data := by
            have hmap : s.data.map escapeChar = s.data.map String.singleton :=
              List.map_congr_left (fun c hc => escapeChar_safe c (hsdata c hc))
            rw [hmap, join_map_singleton]
          have hsb := parseStringBody_safe s.data
            (':' :: ' ' :: ((jsonText ind v).data ++ '\n' :: (wsC ++ '\x7d' :: rest)))
            hsdata
          have hv := hvp ind g [' ']
            ('\n' :: (wsC ++ '\x7d' :: rest)) hg
            (by intro c hc; simp at hc; rw [hc]; rfl) (by simp [atBoundary])
          have hskip : skipWs ('\n' :: (wsC ++ '\x7d' :: rest)) = '\x7d' :: rest := by
            rw [show ('\n' :: (wsC ++ '\x7d' :: rest)) = (('\n' :: wsC) ++ ('\x7d' :: rest)) by simp]
            rw [skipWs_append_of_ws ('\n' :: wsC) ('\x7d' :: rest) ?hws,
                skipWs_cons_of_not '\x7d' rest (by decide)]
            case hws =>
              intro c hc
              rcases List.mem_cons.mp hc with h2 | h2
              · rw [h2]; rfl
              · exact hwsC c h2
          simp only [parseMembers]
          simp only [jsonTextPairs, jsonKeyText, String.data_append, data_colonSp,
            List.append_assoc, List.cons_append, List.nil_append, hquote, hjoin] at hsb hv ⊢
          rw [skipWs_append_of_ws pre _ hpre,
              skipWs_append_of_ws (spaces ind).data _ (spaces_ws ind),
              skipWs_cons_of_not '"' _ (by decide)]
          have hcolon : jsonWs ':' = false := by decide
          simp [hsb, hv, hskip, headIs, string_mk_data, skipWs_cons_of_not, hcolon]
  | cons p ps2 ih =>
      cases p with
      | mk k2 v2 =>
          intro k v hVP f pre wsC rest hf hpre hwsC
          cases f with
          | zero => simp [nodesPairs] at hf
          | succ g =>
              obtain ⟨hkey, hvp⟩ := hVP (k, v) (by simp)
              obtain ⟨s, hks, hsafe⟩ : ∃ s, k = .kstr s ∧ safeString s = true := by
                cases k with
                | kstr s => exact ⟨s, rfl, by simpa [safeKey] using hkey⟩
                | kint n => simp [safeKey] at hkey
                | kts s => simp [safeKey] at hkey
              subst hks
              have hg : nodes v ≤ g := by
                simp [nodesPairs] at hf
                omega
              have hgrest : nodesPairs ((k2, v2) :: ps2) ≤ g := by
                simp [nodesPairs] at hf ⊢
                omega
              have hsdata : ∀ c ∈ s.data, safeChar c = true := by
                simpa [safeString, List.all_eq_true] using hsafe
              have hprews : ∀ c ∈ pre ++ (spaces ind).data, jsonWs c = true := by
                intro c hc
                rcases List.mem_append.mp hc with h1 | h1
                · exact hpre c h1
                · exact spaces_ws ind c h1
              have hquote := quoteStr_data_head s
              have hjoin : (String.join (s.data.map escapeChar)).data = s.data := by
                have hmap : s.data.map escapeChar = s.data.map String.singleton :=
                  List.map_congr_left (fun c hc => escapeChar_safe c (hsdata c hc))
                rw [hmap, join_map_singleton]
              have hsb := parseStringBody_safe s.data
                (':' :: ' ' :: ((jsonText ind v).data ++
                  ',' :: '\n' :: ((jsonTextPairs ind k2 v2 ps2).data ++
                    '\n' :: (wsC ++ '\x7d' :: rest))))
                hsdata
              have hv := hvp ind g [' ']
                (',' :: '\n' :: ((jsonTextPairs ind k2 v2 ps2).data ++
                  '\n' :: (wsC ++ '\x7d' :: rest))) hg
                (by intro c hc; simp at hc; rw [hc]; rfl) (by simp [atBoundary])
              have h2 := ih k2 v2 (fun q hq => hVP q (List.mem_cons_of_mem (JKey.kstr s, v) hq)) g
                ['\n'] wsC rest hgrest
                (by intro c hc; simp at hc; rw [hc]; rfl) hwsC
              simp only [parseMembers]
              simp only [jsonTextPairs, jsonKeyText, String.data_append, data_colonSp,
                data_commaNl, List.append_assoc, List.cons_append, List.nil_append,
                hquote, hjoin] at hsb hv h2 ⊢
              rw [skipWs_append_of_ws pre _ hpre,
                  skipWs_append_of_ws (spaces ind).data _ (spaces_ws ind),
                  skipWs_cons_of_not '"' _ (by decide)]
              have hcolon : jsonWs ':' = false := by decide
              have hcomma : jsonWs ',' = false := by decide
              simp [hsb, hv, h2, headIs, string_mk_data, skipWs_cons_of_not,
                hcolon, hcomma]

theorem data_mk (l : List Char) : (String.mk l).data = l := rfl

theorem wfJsonElems_iff (xs : List PyVal) :
    wfJsonElems xs = true ↔ ∀ x ∈ xs, wfJson x = true := by
  induction xs with
  | nil => simp [wfJsonElems]
  | cons x xs ih => simp [wfJsonElems, ih]

theorem wfJsonPairs_iff (kvs : List (JKey × PyVal)) :
    wfJsonPairs kvs = true ↔
      ∀ kv ∈ kvs, safeKey kv.1 = true ∧ wfJson kv.2 = true := by
  induction kvs with
  | nil => simp [wfJsonPairs]
  | cons kv rest ih =>
      cases kv with
      | mk k v => simp [wfJsonPairs, ih, and_assoc]

/-- The central round trip: the parser recovers every well-formed value
from its printed text, from any indentation, through any leading
whitespace, leaving the trailing input intact. -/
theorem parse_jsonText :
    ∀ v, wfJson v = true →
      ∀ ind f (pre rest : List Char), nodes v ≤ f →
        (∀ c ∈ pre, jsonWs c = true) → atBoundary rest = true →
        parseVal f (pre ++ (jsonText ind v).data ++ rest) = some (v, rest) := by
  intro v
  induction v using PyVal.recOn_mem with
  | hnan => intro hwf; simp [wfJson] at hwf
  | hts s => intro hwf; simp [wfJson] at hwf
  | hdf df => intro hwf; simp [wfJson] at hwf
  | hser ks vs => intro hwf; simp [wfJson] at hwf
  | hnull =>
      intro _ ind f pre rest hf hpre hrest
      cases f with
      | zero => exact absurd hf (by simp only [nodes]; omega)
      | succ g =>
          have hj : jsonText ind .pnull = "null" := by simp [jsonText]
          rw [hj, data_null]
          simp only [parseVal, List.cons_append, List.nil_append, List.append_assoc]
          rw [skipWs_append_of_ws pre _ hpre, skipWs_cons_of_not 'n' _ (by decide)]
          simp [dropLit]
  | hbool b =>
      intro _ ind f pre rest hf hpre hrest
      cases f with
      | zero => exact absurd hf (by simp only [nodes]; omega)
      | succ g =>
          cases b with
          | true =>
              have hj : jsonText ind (.pbool true) = "true" := by simp [jsonText]
              rw [hj, data_true]
              simp only [parseVal, List.cons_append, List.nil_append, List.append_assoc]
              rw [skipWs_append_of_ws pre _ hpre, skipWs_cons_of_not 't' _ (by decide)]
              simp [dropLit]
          | false =>
              have hj : jsonText ind (.pbool false) = "false" := by simp [jsonText]
              rw [hj, data_false]
              simp only [parseVal, List.cons_append, List.nil_append, List.append_assoc]
              rw [skipWs_append_of_ws pre _ hpre, skipWs_cons_of_not 'f' _ (by decide)]
              simp [dropLit]
  | hint n =>
      intro _ ind f pre rest hf hpre hrest
      cases f with
      | zero => exact absurd hf (by simp only [nodes]; omega)
      | succ g =>
          have hj : jsonText ind (.pint n) = intRepr n := by simp [jsonText]
          rw [hj]
          by_cases hn : n < 0
          · have hpd := parseDigits_round (natDecDigits (-n).toNat) rest
              (natDecDigits_all_digits _) (natDecDigits_ne_nil _) hrest
            simp only [intRepr, if_pos hn, String.data_append, data_dash, data_mk,
              List.cons_append, List.nil_append, List.append_assoc]
            simp only [parseVal]
            rw [skipWs_append_of_ws pre _ hpre, skipWs_cons_of_not '-' _ (by decide)]
            simp [hpd, digitsToNat_natDecDigits]
            omega
          · cases hd : natDecDigits n.toNat with
            | nil => exact absurd hd (natDecDigits_ne_nil _)
            | cons c t =>
                have hdigB : isDigitB c = true := by
                  apply natDecDigits_all_digits n.toNat
                  rw [hd]
                  simp
                have hdig := hdigB
                simp only [isDigitB, Bool.and_eq_true, decide_eq_true_eq] at hdig
                have hcn : ¬(c = 'n') := char_ne_of_toNat_ne (by show c.toNat ≠ 110; omega)
                have hct : ¬(c = 't') := char_ne_of_toNat_ne (by show c.toNat ≠ 116; omega)
                have hcf : ¬(c = 'f') := char_ne_of_toNat_ne (by show c.toNat ≠ 102; omega)
                have hcq : ¬(c = '"') := char_ne_of_toNat_ne (by show c.toNat ≠ 34; omega)
                have hcl : ¬(c = '[') := char_ne_of_toNat_ne (by show c.toNat ≠ 91; omega)
                have hcb : ¬(c = '\x7b') := char_ne_of_toNat_ne (by show c.toNat ≠ 123; omega)
                have hcd : ¬(c = '-') := char_ne_of_toNat_ne (by show c.toNat ≠ 45; omega)
                have hcws : jsonWs c = false := by
                  rw [Bool.eq_false_iff]
                  intro hws
                  simp only [jsonWs, Bool.or_eq_true, decide_eq_true_eq] at hws
                  omega
                have hpd := parseDigits_round (c :: t) rest
                  (by rw [← hd]; exact natDecDigits_all_digits _) (by simp) hrest
                simp only [intRepr, if_neg hn, data_mk, hd, List.cons_append,
                  List.nil_append, List.append_assoc]
                simp only [parseVal]
                rw [skipWs_append_of_ws pre _ hpre, skipWs_cons_of_not c _ hcws]
                simp only [List.cons_append] at hpd
                simp [hcn, hct, hcf, hcq, hcl, hcb, hcd, hdigB, hpd, ← hd,
                  digitsToNat_natDecDigits]
                omega
  | hstr s =>
      intro hwf ind f pre rest hf hpre hrest
      cases f with
      | zero => exact absurd hf (by simp only [nodes]; omega)
      | succ g =>
          have hsafe : safeString s = true := by simpa [wfJson] using hwf
          have hsdata : ∀ c ∈ s.data, safeChar c = true := by
            simpa [safeString, List.all_eq_true] using hsafe
          have hjoin : (String.join (s.data.map escapeChar)).data = s.data := by
            have hmap : s.data.map escapeChar = s.data.map String.singleton :=
              List.map_congr_left (fun c hc => escapeChar_safe c (hsdata c hc))
            rw [hmap, join_map_singleton]
          have hj : jsonText ind (.pstr s) = quoteStr s := by simp [jsonText]
          have hsb := parseStringBody_safe s.data rest hsdata
          rw [hj]
          rw [show (quoteStr s).data = '"' :: (s.data ++ ['"']) by
            rw [quoteStr_data_head s, hjoin]]
          simp only [parseVal, List.cons_append, List.nil_append, List.append_assoc]
          rw [skipWs_append_of_ws pre _ hpre, skipWs_cons_of_not '"' _ (by decide)]
          simp [hsb, string_mk_data]
  | hlist xs ih =>
      intro hwf ind f pre rest hf hpre hrest
      cases f with
      | zero => exact absurd hf (by simp only [nodes]; omega)
      | succ g =>
          cases xs with
          | nil =>
              have hj : jsonText ind (.plist []) = "[]" := by simp [jsonText]
              rw [hj, data_emptyArr]
              simp only [parseVal, List.cons_append, List.nil_append, List.append_assoc]
              rw [skipWs_append_of_ws pre _ hpre, skipWs_cons_of_not '[' _ (by decide)]
              simp [skipWs_cons_of_not ']' _ (by decide), headIs]
          | cons x xs2 =>
              have hwfall : ∀ y ∈ x :: xs2, wfJson y = true :=
                (wfJsonElems_iff (x :: xs2)).1 (by simpa [wfJson] using hwf)
              have hVPall : ∀ y ∈ x :: xs2, ∀ ind2 f2 (pre2 rest2 : List Char),
                  nodes y ≤ f2 → (∀ c ∈ pre2, jsonWs c = true) →
                  atBoundary rest2 = true →
                  parseVal f2 (pre2 ++ (jsonText ind2 y).data ++ rest2) = some (y, rest2) :=
                fun y hy => ih y hy (hwfall y hy)
              have hg : nodesElems (x :: xs2) ≤ g := by
                simp [nodes] at hf
                omega
              obtain ⟨c0, t0, hct0, hc0ws, hc0br, _⟩ := jsonText_head (ind + 2) x
              obtain ⟨M, hM⟩ : ∃ M, (jsonTextItems (ind + 2) x xs2).data =
                  (spaces (ind + 2)).data ++ ((jsonText (ind + 2) x).data ++ M) := by
                cases xs2 with
                | nil =>
                    refine ⟨[], ?_⟩
                    simp [jsonTextItems, String.data_append]
                | cons y ys =>
                    refine ⟨',' :: '\n' :: (jsonTextItems (ind + 2) y ys).data, ?_⟩
                    simp [jsonTextItems, String.data_append, data_commaNl,
                      List.append_assoc]
              have hj : (jsonText ind (.plist (x :: xs2))).data =
                  '[' :: '\n' :: ((jsonTextItems (ind + 2) x xs2).data ++
                    '\n' :: ((spaces ind).data ++ [']'])) := by
                simp [jsonText, String.data_append, data_openArr, data_nl, data_closeArr]
              rw [hj]
              simp only [parseVal, List.cons_append, List.nil_append, List.append_assoc]
              rw [skipWs_append_of_ws pre _ hpre, skipWs_cons_of_not '[' _ (by decide)]
              have hT : ('\n' :: ((jsonTextItems (ind + 2) x xs2).data ++
                  '\n' :: ((spaces ind).data ++ (']' :: rest)))) =
                  ('\n' :: (spaces (ind + 2)).data) ++
                    ((jsonText (ind + 2) x).data ++
                      (M ++ '\n' :: ((spaces ind).data ++ (']' :: rest)))) := by
                rw [hM]
                simp [List.append_assoc]
              have hskipT : skipWs ('\n' :: ((jsonTextItems (ind + 2) x xs2).data ++
                  '\n' :: ((spaces ind).data ++ (']' :: rest)))) =
                  (jsonText (ind + 2) x).data ++
                    (M ++ '\n' :: ((spaces ind).data ++ (']' :: rest))) := by
                rw [hT, skipWs_append_of_ws _ _ ?hws]
                · rw [hct0]
                  exact skipWs_cons_of_not c0 _ hc0ws
                case hws =>
                  intro c hc
                  rcases List.mem_cons.mp hc with h2 | h2
                  · rw [h2]; rfl
                  · exact spaces_ws (ind + 2) c h2
              have hhead : headIs ']' (skipWs ('\n' :: ((jsonTextItems (ind + 2) x xs2).data ++
                  '\n' :: ((spaces ind).data ++ (']' :: rest))))) = false := by
                rw [hskipT, hct0]
                simp [headIs, hc0br]
              have hitems := parseItems_round (ind + 2) xs2 x hVPall g
                ['\n'] (spaces ind).data rest hg
                (by intro c hc; simp at hc; rw [hc]; rfl) (spaces_ws ind)
              simp only [List.cons_append, List.nil_append, List.append_assoc] at hitems
              have hitems2 : parseItems g (skipWs ('\n' ::
                  ((jsonTextItems (ind + 2) x xs2).data ++
                  '\n' :: ((spaces ind).data ++ (']' :: rest))))) = some (x :: xs2, rest) := by
                rw [parseItems_skipWs]
                exact hitems
              simp [hhead, hitems2]
  | hdict kvs ih =>
      intro hwf ind f pre rest hf hpre hrest
      cases f with
      | zero => exact absurd hf (by simp only [nodes]; omega)
      | succ g =>
          cases kvs with
          | nil =>
              have hj : jsonText ind (.pdict []) = "\x7b\x7d" := by simp [jsonText]
              rw [hj, data_emptyObj]
              simp only [parseVal, List.cons_append, List.nil_append, List.append_assoc]
              rw [skipWs_append_of_ws pre _ hpre, skipWs_cons_of_not '\x7b' _ (by decide)]
              simp [skipWs_cons_of_not '\x7d' _ (by decide), headIs]
          | cons kv ps =>
              cases kv with
              | mk k v =>
                  have hwfall : ∀ p ∈ (k, v) :: ps, safeKey p.1 = true ∧ wfJson p.2 = true :=
                    (wfJsonPairs_iff ((k, v) :: ps)).1 (by simpa [wfJson] using hwf)
                  have hVPall : ∀ p ∈ (k, v) :: ps, safeKey p.1 = true ∧
                      ∀ ind2 f2 (pre2 rest2 : List Char), nodes p.2 ≤ f2 →
                        (∀ c ∈ pre2, jsonWs c = true) → atBoundary rest2 = true →
                        parseVal f2 (pre2 ++ (jsonText ind2 p.2).data ++ rest2) =
                          some (p.2, rest2) :=
                    fun p hp => ⟨(hwfall p hp).1, ih p hp (hwfall p hp).2⟩
                  have hg : nodesPairs ((k, v) :: ps) ≤ g := by
                    simp [nodes] at hf
                    omega
                  obtain ⟨s, hks, hsafe⟩ : ∃ s, k = .kstr s ∧ safeString s = true := by
                    have := (hwfall (k, v) (by simp)).1
                    cases k with
                    | kstr s => exact ⟨s, rfl, by simpa [safeKey] using this⟩
                    | kint n => simp [safeKey] at this
                    | kts s => simp [safeKey] at this
                  subst hks
                  obtain ⟨M, hM⟩ : ∃ M, (jsonTextPairs (ind + 2) (JKey.kstr s) v ps).data =
                      (spaces (ind + 2)).data ++ ('"' :: M) := by
                    cases ps with
                    | nil =>
                        refine ⟨((String.join (s.data.map escapeChar)).data ++ ['"']) ++
                          (':' :: ' ' :: (jsonText (ind + 2) v).data), ?_⟩
                        simp [jsonTextPairs, jsonKeyText, quoteStr_data_head s,
                          String.data_append, data_colonSp, List.append_assoc,
                          List.cons_append]
                    | cons p2 ps2 =>
                        cases p2 with
                        | mk k2 v2 =>
                            refine ⟨((String.join (s.data.map escapeChar)).data ++ ['"']) ++
                              (':' :: ' ' :: ((jsonText (ind + 2) v).data ++
                                (',' :: '\n' :: (jsonTextPairs (ind + 2) k2 v2 ps2).data))), ?_⟩
                            simp [jsonTextPairs, jsonKeyText, quoteStr_data_head s,
                              String.data_append, data_colonSp, data_commaNl,
                              List.append_assoc, List.cons_append]
                  have hj : (jsonText ind (.pdict ((JKey.kstr s, v) :: ps))).data =
                      '\x7b' :: '\n' :: ((jsonTextPairs (ind + 2) (JKey.kstr s) v ps).data ++
                        '\n' :: ((spaces ind).data ++ ['\x7d'])) := by
                    simp [jsonText, String.data_append, data_openObj, data_nl, data_closeObj]
                  rw [hj]
                  simp only [parseVal, List.cons_append, List.nil_append, List.append_assoc]
                  rw [skipWs_append_of_ws pre _ hpre, skipWs_cons_of_not '\x7b' _ (by decide)]
                  have hT : ('\n' :: ((jsonTextPairs (ind + 2) (JKey.kstr s) v ps).data ++
                      '\n' :: ((spaces ind).data ++ ('\x7d' :: rest)))) =
                      ('\n' :: (spaces (ind + 2)).data) ++
                        ('"' :: (M ++ '\n' :: ((spaces ind).data ++ ('\x7d' :: rest)))) := by
                    rw [hM]
                    simp [List.append_assoc]
                  have hskipT : skipWs ('\n' :: ((jsonTextPairs (ind + 2) (JKey.kstr s) v ps).data ++
                      '\n' :: ((spaces ind).data ++ ('\x7d' :: rest)))) =
                      '"' :: (M ++ '\n' :: ((spaces ind).data ++ ('\x7d' :: rest))) := by
                    rw [hT, skipWs_append_of_ws _ _ ?hws,
                        skipWs_cons_of_not '"' _ (by decide)]
                    case hws =>
                      intro c hc
                      rcases List.mem_cons.mp hc with h2 | h2
                      · rw [h2]; rfl
                      · exact spaces_ws (ind + 2) c h2
                  have hhead : headIs '\x7d' (skipWs ('\n' ::
                      ((jsonTextPairs (ind + 2) (JKey.kstr s) v ps).data ++
                      '\n' :: ((spaces ind).data ++ ('\x7d' :: rest))))) = false := by
                    rw [hskipT]
                    simp [headIs]
                  have hmem := parseMembers_round (ind + 2) ps (JKey.kstr s) v hVPall g
                    ['\n'] (spaces ind).data rest hg
                    (by intro c hc; simp at hc; rw [hc]; rfl) (spaces_ws ind)
                  simp only [List.cons_append, List.nil_append, List.append_assoc] at hmem
                  have hmem2 : parseMembers g (skipWs ('\n' ::
                      ((jsonTextPairs (ind + 2) (JKey.kstr s) v ps).data ++
                      '\n' :: ((spaces ind).data ++ ('\x7d' :: rest))))) =
                      some ((JKey.kstr s, v) :: ps, rest) := by
                    rw [parseMembers_skipWs]
                    exact hmem
                  simp [hhead, hmem2]

theorem spaces_data_length (n : Nat) : (spaces n).data.length = n := by
  simp [spaces]

theorem spaces_length (n : Nat) : (spaces n).length = n :=
  spaces_data_length n

theorem len_null : ("null" : String).length = 4 := rfl
theorem len_true : ("true" : String).length = 4 := rfl
theorem len_false : ("false" : String).length = 5 := rfl
theorem len_nanLit : ("NaN" : String).length = 3 := rfl
theorem len_emptyArr : ("[]" : String).length = 2 := rfl
theorem len_emptyObj : ("\x7b\x7d" : String).length = 2 := rfl
theorem len_openArr : ("[\n" : String).length = 2 := rfl
theorem len_openObj : ("\x7b\n" : String).length = 2 := rfl
theorem len_closeArr : ("]" : String).length = 1 := rfl
theorem len_closeObj : ("\x7d" : String).length = 1 := rfl
theorem len_nl : ("\n" : String).length = 1 := rfl
theorem len_commaNl : (",\n" : String).length = 2 := rfl
theorem len_colonSp : (": " : String).length = 2 := rfl
theorem len_quote : ("\"" : String).length = 1 := rfl
theorem len_dash : ("-" : String).length = 1 := rfl

theorem quoteStr_length_pos (s : String) : 1 ≤ (quoteStr s).length := by
  have := quoteStr_data_head s
  have h2 : (quoteStr s).length = (quoteStr s).data.length := rfl
  rw [h2, this]
  simp

theorem jsonTextItems_length (ind : Nat) :
    ∀ (xs : List PyVal) (x : PyVal),
      (∀ y ∈ x :: xs, ∀ ind2, nodes y ≤ (jsonText ind2 y).length) →
      1 ≤ ind →
      nodesElems (x :: xs) ≤ (jsonTextItems ind x xs).length := by
  intro xs
  induction xs with
  | nil =>
      intro x h hind
      have hx := h x (by simp) ind
      simp [jsonTextItems, nodesElems, String.length_append, spaces_length]
      omega
  | cons y ys ih =>
      intro x h hind
      have hx := h x (by simp) ind
      have hrest := ih y (fun z hz => h z (List.mem_cons_of_mem x hz)) hind
      simp [jsonTextItems, nodesElems, String.length_append, spaces_length,
        len_commaNl] at hrest ⊢
      omega

theorem jsonTextPairs_length (ind : Nat) :
    ∀ (ps : List (JKey × PyVal)) (k : JKey) (v : PyVal),
      (∀ p ∈ (k, v) :: ps, ∀ ind2, nodes p.2 ≤ (jsonText ind2 p.2).length) →
      1 ≤ ind →
      nodesPairs ((k, v) :: ps) ≤ (jsonTextPairs ind k v ps).length := by
  intro ps
  induction ps with
  | nil =>
      intro k v h hind
      have hv := h (k, v) (by simp) ind
      simp [jsonTextPairs, nodesPairs, String.length_append, spaces_length,
        len_colonSp] at hv ⊢
      omega
  | cons p ps2 ih =>
      cases p with
      | mk k2 v2 =>
          intro k v h hind
          have hv := h (k, v) (by simp) ind
          have hrest := ih k2 v2 (fun q hq => h q (List.mem_cons_of_mem (k, v) hq)) hind
          simp [jsonTextPairs, nodesPairs, String.length_append, spaces_length,
            len_colonSp, len_commaNl] at hv hrest ⊢
          omega

/-- The printed text is at least as long as the fuel the parser needs. -/
theorem nodes_le_length : ∀ v ind, nodes v ≤ (jsonText ind v).length := by
  intro v
  induction v using PyVal.recOn_mem with
  | hnull => intro ind; simp [jsonText, nodes, len_null]
  | hbool b => intro ind; cases b <;> simp [jsonText, nodes, len_true, len_false]
  | hint n =>
      intro ind
      have h1 := natDecDigits_ne_nil n.toNat
      have h2 := natDecDigits_ne_nil (-n).toNat
      have h3 : (String.mk (natDecDigits n.toNat)).length = (natDecDigits n.toNat).length := rfl
      have h4 : (String.mk (natDecDigits (-n).toNat)).length =
        (natDecDigits (-n).toNat).length := rfl
      by_cases hn : n < 0
      · simp [jsonText, nodes, intRepr, hn, String.length_append, len_dash, h4]
      · simp [jsonText, nodes, intRepr, hn, h3]
        exact List.length_pos.mpr h1
  | hstr s => intro ind; simp [jsonText, nodes]; exact quoteStr_length_pos s
  | hnan => intro ind; simp [jsonText, nodes, len_nanLit]
  | hts s => intro ind; simp [jsonText, nodes]; exact quoteStr_length_pos s
  | hdf df => intro ind; simp [jsonText, nodes]; exact quoteStr_length_pos _
  | hser ks vs => intro ind; simp [jsonText, nodes]; exact quoteStr_length_pos _
  | hlist xs ih =>
      intro ind
      cases xs with
      | nil => simp [jsonText, nodes, nodesElems, len_emptyArr]
      | cons x xs2 =>
          have := jsonTextItems_length (ind + 2) xs2 x (fun y hy ind2 => ih y hy ind2)
            (by omega)
          simp [jsonText, nodes, String.length_append, len_openArr, len_nl,
            len_closeArr, spaces_length] at this ⊢
          omega
  | hdict kvs ih =>
      intro ind
      cases kvs with
      | nil => simp [jsonText, nodes, nodesPairs, len_emptyObj]
      | cons kv ps =>
          cases kv with
          | mk k v =>
              have := jsonTextPairs_length (ind + 2) ps k v
                (fun p hp ind2 => ih p hp ind2) (by omega)
              simp [jsonText, nodes, String.length_append, len_openObj, len_nl,
                len_closeObj, spaces_length] at this ⊢
              omega

/-- Every round-trip-well-formed value is already normalized. -/
theorem wf_isNormalized : ∀ v, wfJson v = true → isNormalized v = true := by
  intro v
  induction v using PyVal.recOn_mem with
  | hnull => intro _; rfl
  | hbool b => intro _; rfl
  | hint n => intro _; rfl
  | hstr s => intro _; rfl
  | hnan => intro h; simp [wfJson] at h
  | hts s => intro h; simp [wfJson] at h
  | hdf df => intro h; simp [wfJson] at h
  | hser ks vs => intro h; simp [wfJson] at h
  | hlist xs ih =>
      intro h
      have hall := (wfJsonElems_iff xs).1 (by simpa [wfJson] using h)
      simp only [isNormalized]
      exact (isNormalizedElems_iff xs).2 (fun x hx => ih x hx (hall x hx))
  | hdict kvs ih =>
      intro h
      have hall := (wfJsonPairs_iff kvs).1 (by simpa [wfJson] using h)
      simp only [isNormalized]
      refine (isNormalizedPairs_iff kvs).2 (fun kv hkv => ⟨?_, ih kv hkv (hall kv hkv).2⟩)
      have := (hall kv hkv).1
      cases h2 : kv.1 with
      | kstr s => rfl
      | kint n => rw [h2] at this; simp [safeKey] at this
      | kts s => rw [h2] at this; simp [safeKey] at this

/-- Every round-trip-well-formed value is serializable. -/
theorem wf_serializable : ∀ v, wfJson v = true → serializable v = true := by
  intro v
  induction v using PyVal.recOn_mem with
  | hnull => intro _; rfl
  | hbool b => intro _; rfl
  | hint n => intro _; rfl
  | hstr s => intro _; rfl
  | hnan => intro _; rfl
  | hts s => intro _; rfl
  | hdf df => intro _; rfl
  | hser ks vs => intro _; rfl
  | hlist xs ih =>
      intro h
      have hall := (wfJsonElems_iff xs).1 (by simpa [wfJson] using h)
      simp only [serializable]
      exact (serializableElems_iff xs).2 (fun x hx => ih x hx (hall x hx))
  | hdict kvs ih =>
      intro h
      have hall := (wfJsonPairs_iff kvs).1 (by simpa [wfJson] using h)
      simp only [serializable]
      refine (serializablePairs_iff kvs).2 (fun kv hkv => ⟨?_, ih kv hkv (hall kv hkv).2⟩)
      have := (hall kv hkv).1
      cases h2 : kv.1 with
      | kstr s => rfl
      | kint n => rw [h2] at this; simp [safeKey] at this
      | kts s => rw [h2] at this; simp [safeKey] at this

theorem isNoData_false (v : PyVal) (h1 : v ≠ .pnull) (h2 : v ≠ .plist []) :
    isNoData v = false := by
  cases v with
  | pnull => exact absurd rfl h1
  | plist xs =>
      cases xs with
      | nil => exact absurd rfl h2
      | cons x rest => rfl
  | pbool b => rfl
  | pint n => rfl
  | pstr s => rfl
  | nan => rfl
  | pts s => rfl
  | pdict kvs => rfl
  | pdf df => rfl
  | pseries ks vs => rfl

/-- C8: for every well-formed, JSON-representable, non-empty normalized
value, format_response emits the title line followed by a JSON text that
parses back to a value structurally equal to the input — keys in order,
all values intact. -/
theorem format_response_roundtrip :
    ∀ (v : PyVal) (title : String),
      wfJson v = true → v ≠ .pnull → v ≠ .plist [] →
      ∃ s, format_response v title = title ++ ":\n" ++ s ∧
        parseJson s = some v := by
  intro v title hwf hn1 hn2
  have hnorm : isNormalized v = true := wf_isNormalized v hwf
  have hser : serializable v = true := wf_serializable v hwf
  have hconv := convert_normalized v hnorm
  have hdump := dumpsVal_eq_jsonText v hser 0
  have hnd := isNoData_false v hn1 hn2
  refine ⟨jsonText 0 v, ?_, ?_⟩
  · simp [format_response, hconv, hnd, hdump]
  · have hlen : nodes v ≤ (jsonText 0 v).length + 1 := by
      have h1 := nodes_le_length v 0
      have h2 : (jsonText 0 v).length = (jsonText 0 v).data.length := rfl
      omega
    have hp := parse_jsonText v hwf 0 ((jsonText 0 v).length + 1) [] [] hlen
      (by intro c hc; simp at hc) (by simp [atBoundary])
    simp only [List.nil_append, List.append_nil] at hp
    simp [parseJson, hp, skipWs]

/-- C8 (witness): the round trip at a concrete one-entry mapping. -/
theorem format_response_roundtrip_witness :
    ∃ s, format_response (.pdict [(.kstr "price", .pint 3)]) "T" =
        "T" ++ ":\n" ++ s ∧
      parseJson s = some (.pdict [(.kstr "price", .pint 3)]) :=
  format_response_roundtrip (.pdict [(.kstr "price", .pint 3)]) "T"
    (by simp [wfJson, wfJsonPairs, safeKey, safeString, safeChar, List.all])
    (fun h => PyVal.noConfusion h) (fun h => PyVal.noConfusion h)

end StockMCP
